import Mathlib

/-!
Verification of the `pyTooling.Graph` module (`src/pyTooling/Graph/__init__.py`).

The module is shallowly embedded as follows.

* Python objects live in a `World`: a heap holding all `Graph`, `Vertex` and
  `Edge` objects created so far.  Object references are indices into the
  world's three object lists.  Methods become functions `World → ... → World ×
  Except PyError _`: the returned world is the heap after the call, the
  `Except` value is the normal return value or the raised exception.  The
  source raises only before mutating any reachable state in the operations
  modelled here, so an `.error` outcome always comes with the unmutated heap.
* Python `dict` side-tables (`_dict` of `Vertex`, `Edge` and `Graph`, and the
  vertex/edge registries of `Graph`) are insertion-ordered association lists:
  assignment to an existing key overwrites in place, assignment to a new key
  appends, `del` removes the entry.
* The traversal generators `IterateVertexesBFS` / `IterateVertexesDFS` read
  only each vertex's `_outbound` edge list and each edge's destination, so they
  are embedded generically over a successor map `out : V → List V` (for a
  world, `worldOut` is that map).  Generators are embedded as fuelled loops
  returning `Option (List V)`: `some` is the finite yielded sequence, `none`
  means the fuel ran out before the loop finished.  The python `set` of
  visited vertices is a list used only through membership; `deque.appendleft`
  paired with `deque.pop` is a FIFO queue, modelled by enqueueing at the tail
  and dequeueing at the head of a list.
-/

namespace PyG

/-- The exception kinds raised by the source: `ValueError` (duplicate vertex
identity), `TypeError` (isinstance checks, `Graph.Name` setter), bare
`Exception` (cross-graph edge, non-vertex link argument), `KeyError` (missing
side-table key), `AttributeError` (reading `_graph` off an object without that
slot), and `NotImplementedError` (algorithm stubs). -/
inductive PyError where
  | valueError
  | typeError
  | exception
  | keyError
  | attributeError
  | notImplementedError
deriving DecidableEq

/-- Python `d[k] = v` on an insertion-ordered dict: overwrite in place when the
key is present, append when it is new. -/
def pyDictSet {K V : Type} [DecidableEq K] (d : List (K × V)) (k : K) (v : V) :
    List (K × V) :=
  if k ∈ d.map Prod.fst then d.map (fun p => if p.1 = k then (p.1, v) else p)
  else d ++ [(k, v)]

/-- Python `d[k]`: the stored value, or a raised `KeyError`. -/
def pyDictGet {K V : Type} [DecidableEq K] (d : List (K × V)) (k : K) :
    Except PyError V :=
  match d.find? (fun p => decide (p.1 = k)) with
  | some p => .ok p.2
  | none => .error .keyError

/-- Python `del d[k]`: the dict without the entry, or a raised `KeyError`. -/
def pyDictDel {K V : Type} [DecidableEq K] (d : List (K × V)) (k : K) :
    Except PyError (List (K × V)) :=
  if k ∈ d.map Prod.fst then .ok (d.filter (fun p => decide (p.1 ≠ k)))
  else .error .keyError

/-- An `Edge` object (class `Edge`, lines 319-342): `_id`, `_source`,
`_destination`, `_weight`, `_value`, `_dict`.  Source and destination are
vertex references (world indices). -/
structure Edge where
  eid : Option Int
  source : Nat
  destination : Nat
  weight : Option Int
  value : Option Int
  dict : List (Nat × Int)
deriving DecidableEq

/-- A `Vertex` object (class `Vertex`, lines 79-316): `_graph` back-reference
(graph index), `_id`, `_value`, `_inbound` / `_outbound` edge lists (edge
indices, insertion order), `_dict`. -/
structure Vertex where
  graph : Nat
  vid : Option Nat
  value : Option Int
  inbound : List Nat
  outbound : List Nat
  dict : List (Nat × Int)
deriving DecidableEq

/-- A `Graph` object (class `Graph`, lines 390-431): `_name`,
`_verticesWithID` (identity → vertex index, insertion-ordered),
`_verticesWithoutID`, `_edgesWithID`, `_edgesWithoutID`, `_dict`. -/
structure Graph where
  name : Option String
  verticesWithID : List (Nat × Nat)
  verticesWithoutID : List Nat
  edgesWithID : List (Int × Nat)
  edgesWithoutID : List Nat
  dict : List (Nat × Int)
deriving DecidableEq

/-- The heap of all objects created so far. -/
structure World where
  graphs : List Graph
  vertices : List Vertex
  edges : List Edge
deriving DecidableEq

/-- Embeds `Graph.__init__` (lines 399-405): every container starts empty. -/
def GraphInit (name : Option String) : Graph :=
  { name := name, verticesWithID := [], verticesWithoutID := [],
    edgesWithID := [], edgesWithoutID := [], dict := [] }

instance : Inhabited Graph := ⟨GraphInit none⟩

instance : Inhabited Vertex :=
  ⟨{ graph := 0, vid := none, value := none, inbound := [], outbound := [], dict := [] }⟩

instance : Inhabited Edge :=
  ⟨{ eid := none, source := 0, destination := 0, weight := none, value := none, dict := [] }⟩

def getGraph (w : World) (gi : Nat) : Graph := w.graphs.getD gi default

def setGraph (w : World) (gi : Nat) (g : Graph) : World :=
  { w with graphs := w.graphs.set gi g }

def getVertex (w : World) (vi : Nat) : Vertex := w.vertices.getD vi default

def setVertex (w : World) (vi : Nat) (v : Vertex) : World :=
  { w with vertices := w.vertices.set vi v }

def getEdge (w : World) (ei : Nat) : Edge := w.edges.getD ei default

def mkVertex (gi : Nat) (vid : Option Nat) (data : Option Int) : Vertex :=
  { graph := gi, vid := vid, value := data, inbound := [], outbound := [], dict := [] }

/-- Embeds `Vertex.__init__(vertexID, data, graph)` (lines 92-110).  `graph is None`
creates a fresh implicit `Graph()`; a duplicate non-null identity raises
`ValueError` before the graph's registries are touched (the partially built
vertex object itself is unreachable after the raise, so it is not added to the
heap). -/
def VertexInit (w : World) (vertexID : Option Nat) (data : Option Int)
    (graph : Option Nat) : World × Except PyError Nat :=
  let w1 := match graph with
    | none => { w with graphs := w.graphs ++ [GraphInit none] }
    | some _ => w
  let gi := match graph with
    | none => w.graphs.length
    | some g => g
  let vi := w1.vertices.length
  let g := getGraph w1 gi
  match vertexID with
  | none =>
      let w2 := setGraph w1 gi
        { g with verticesWithoutID := g.verticesWithoutID ++ [vi] }
      ({ w2 with vertices := w2.vertices ++ [mkVertex gi none data] }, .ok vi)
  | some x =>
      if x ∈ g.verticesWithID.map Prod.fst then (w, .error .valueError)
      else
        let w2 := setGraph w1 gi
          { g with verticesWithID := g.verticesWithID ++ [(x, vi)] }
        ({ w2 with vertices := w2.vertices ++ [mkVertex gi (some x) data] }, .ok vi)

/-- The heap produced by a successful anonymous-vertex construction in graph
`gi` (the `vertexID is None` branch of `Vertex.__init__`). -/
def addAnonVertex (w : World) (gi : Nat) (data : Option Int) : World :=
  { graphs := w.graphs.set gi
      { getGraph w gi with verticesWithoutID :=
          (getGraph w gi).verticesWithoutID ++ [w.vertices.length] },
    vertices := w.vertices ++ [mkVertex gi none data],
    edges := w.edges }

/-- The heap produced by a successful identity-bearing vertex construction in
graph `gi` (the fresh-identity branch of `Vertex.__init__`). -/
def addIdVertex (w : World) (gi x : Nat) (data : Option Int) : World :=
  { graphs := w.graphs.set gi
      { getGraph w gi with verticesWithID :=
          (getGraph w gi).verticesWithID ++ [(x, w.vertices.length)] },
    vertices := w.vertices ++ [mkVertex gi (some x) data],
    edges := w.edges }

def mkEdge (source destination : Nat) (eid weight value : Option Int) : Edge :=
  { eid := eid, source := source, destination := destination,
    weight := weight, value := value, dict := [] }

/-- Embeds `Edge.__init__(source, destination, edgeID, weight, value)` (lines
328-342), called from the linking operations where both arguments are genuine
vertices (so the two `isinstance` checks after the graph comparison pass; the
evaluation-order model of those checks for arbitrary arguments is
`EdgeInitChecks` below).  A cross-graph pair raises a bare `Exception` before
any state is mutated.  Note that the constructed edge is not recorded in any
`Graph` registry. -/
def EdgeInit (w : World) (source destination : Nat)
    (edgeID weight value : Option Int) : World × Except PyError Nat :=
  if (getVertex w source).graph ≠ (getVertex w destination).graph then
    (w, .error .exception)
  else
    ({ w with edges := w.edges ++ [mkEdge source destination edgeID weight value] },
     .ok w.edges.length)

def appendOutbound (w : World) (vi ei : Nat) : World :=
  setVertex w vi
    { getVertex w vi with outbound := (getVertex w vi).outbound ++ [ei] }

def appendInbound (w : World) (vi ei : Nat) : World :=
  setVertex w vi
    { getVertex w vi with inbound := (getVertex w vi).inbound ++ [ei] }

/-- Embeds `Vertex.LinkToVertex(vertex, edgeWeight, edgeValue)` (lines 160-166).  The
source calls `Edge(self, vertex, edgeWeight, edgeValue)` positionally, so
`edgeWeight` lands in `Edge.__init__`'s `edgeID` slot, `edgeValue` in its
`weight` slot, and the edge's `value` stays `None`; the embedding passes the
arguments into exactly those slots.  On success the edge is appended to
`self._outbound`, then to `vertex._inbound`. -/
def LinkToVertex (w : World) (selfV target : Nat)
    (edgeWeight edgeValue : Option Int) : World × Except PyError Unit :=
  match EdgeInit w selfV target edgeWeight edgeValue none with
  | (w1, .error e) => (w1, .error e)
  | (w1, .ok ei) => (appendInbound (appendOutbound w1 selfV ei) target ei, .ok ())

/-- Embeds `Vertex.LinkFromVertex(vertex, edgeWeight, edgeValue)` (lines 168-174):
`Edge(vertex, self, edgeWeight, edgeValue)`, then append to
`vertex._outbound` and `self._inbound`. -/
def LinkFromVertex (w : World) (selfV source : Nat)
    (edgeWeight edgeValue : Option Int) : World × Except PyError Unit :=
  match EdgeInit w source selfV edgeWeight edgeValue none with
  | (w1, .error e) => (w1, .error e)
  | (w1, .ok ei) => (appendInbound (appendOutbound w1 source ei) selfV ei, .ok ())

/-- Embeds `Vertex.LinkToNewVertex(vertexID, vertexData, edgeWeight, edgeValue)`
(lines 176-183): construct `Vertex(vertexID, vertexData, self._graph)`, then
`Edge(self, vertex, edgeWeight, edgeValue)` (the same positional slot shift as
`LinkToVertex`), then the two appends; returns the new vertex. -/
def LinkToNewVertex (w : World) (selfV : Nat) (vertexID : Option Nat)
    (vertexData : Option Int) (edgeWeight edgeValue : Option Int) :
    World × Except PyError Nat :=
  match VertexInit w vertexID vertexData (some (getVertex w selfV).graph) with
  | (w1, .error e) => (w1, .error e)
  | (w1, .ok vi) =>
    match EdgeInit w1 selfV vi edgeWeight edgeValue none with
    | (w2, .error e) => (w2, .error e)
    | (w2, .ok ei) => (appendInbound (appendOutbound w2 selfV ei) vi ei, .ok vi)

/-- Embeds `Vertex.LinkFromNewVertex` (lines 185-192): as `LinkToNewVertex` with the
edge directed from the new vertex to `self`. -/
def LinkFromNewVertex (w : World) (selfV : Nat) (vertexID : Option Nat)
    (vertexData : Option Int) (edgeWeight edgeValue : Option Int) :
    World × Except PyError Nat :=
  match VertexInit w vertexID vertexData (some (getVertex w selfV).graph) with
  | (w1, .error e) => (w1, .error e)
  | (w1, .ok vi) =>
    match EdgeInit w1 vi selfV edgeWeight edgeValue none with
    | (w2, .error e) => (w2, .error e)
    | (w2, .ok ei) => (appendInbound (appendOutbound w2 vi ei) selfV ei, .ok vi)

/-- Embeds `Graph.__len__` (lines 430-431): `len(self._verticesWithoutID) +
len(self._verticesWithID)`. -/
def graphLen (g : Graph) : Nat :=
  g.verticesWithoutID.length + g.verticesWithID.length

/-- The successor map the traversals read: the destinations of a vertex's
`_outbound` edges, in edge-insertion order. -/
def worldOut (w : World) (vi : Nat) : List Nat :=
  (getVertex w vi).outbound.map (fun ei => (getEdge w ei).destination)

/-- Embeds `Vertex.__getitem__` (lines 140-142): `self._dict[key]`. -/
def Vertex.getItem (v : Vertex) (k : Nat) : Except PyError Int := pyDictGet v.dict k

/-- Embeds `Vertex.__setitem__` (lines 144-146). -/
def Vertex.setItem (v : Vertex) (k : Nat) (x : Int) : Vertex :=
  { v with dict := pyDictSet v.dict k x }

/-- Embeds `Vertex.__delitem__` (lines 148-150). -/
def Vertex.delItem (v : Vertex) (k : Nat) : Except PyError Vertex :=
  (pyDictDel v.dict k).map (fun d => { v with dict := d })

/-- Embeds `Edge.__getitem__` (lines 377-379). -/
def Edge.getItem (e : Edge) (k : Nat) : Except PyError Int := pyDictGet e.dict k

/-- Embeds `Edge.__setitem__` (lines 381-383). -/
def Edge.setItem (e : Edge) (k : Nat) (x : Int) : Edge :=
  { e with dict := pyDictSet e.dict k x }

/-- Embeds `Edge.__delitem__` (lines 385-387). -/
def Edge.delItem (e : Edge) (k : Nat) : Except PyError Edge :=
  (pyDictDel e.dict k).map (fun d => { e with dict := d })

/-- Embeds `Graph.__getitem__` (lines 418-420). -/
def Graph.getItem (g : Graph) (k : Nat) : Except PyError Int := pyDictGet g.dict k

/-- Embeds `Graph.__setitem__` (lines 422-424). -/
def Graph.setItem (g : Graph) (k : Nat) (x : Int) : Graph :=
  { g with dict := pyDictSet g.dict k x }

/-- Embeds `Graph.__delitem__` (lines 426-428). -/
def Graph.delItem (g : Graph) (k : Nat) : Except PyError Graph :=
  (pyDictDel g.dict k).map (fun d => { g with dict := d })

/-! ### Evaluation order of the checks in `Edge.__init__`

The validation prelude of `Edge.__init__` observes exactly two features of
each argument: whether reading `._graph` succeeds (raising `AttributeError`
otherwise) and, if it does, which graph it denotes; and whether the argument
is an instance of `Vertex`.  `PyObj` classifies an arbitrary Python argument
by those two features.  Of the classes defined by this module only `Vertex`
has a `_graph` slot (`graphObj`, `edgeObj` and any plain object lack it), but
Python admits duck-typed foreign objects that are not `Vertex` instances yet
do carry a `_graph` attribute; `duckObj` covers those. -/

inductive PyObj where
  | vertexObj (graph : Nat)
  | graphObj
  | edgeObj
  | duckObj (graph : Nat)
  | otherObj
deriving DecidableEq

/-- Reading `obj._graph`: a `Vertex` has that slot, as does a duck-typed
foreign object carrying a `_graph` attribute; no other kind does. -/
def getAttrGraph : PyObj → Option Nat
  | .vertexObj g => some g
  | .duckObj g => some g
  | _ => none

def isVertexInstance : PyObj → Bool
  | .vertexObj _ => true
  | _ => false

/-- Holds of arguments that are instances of this repository's own classes or
plain objects without a `_graph` slot, as opposed to a duck-typed foreign
object that carries a `_graph` attribute without being a `Vertex`. -/
def isRepositoryKind : PyObj → Bool
  | .duckObj _ => false
  | _ => true

inductive EdgeInitOutcome where
  | attributeError
  | sameGraphException
  | typeError
  | passed
deriving DecidableEq

/-- The validation prelude of `Edge.__init__` (lines 329-335) in source
evaluation order: `source._graph is not destination._graph` reads `_graph` off
`source` then off `destination` (an `AttributeError` propagates), compares,
and only then are the two `isinstance(_, Vertex)` checks evaluated. -/
def EdgeInitChecks (source destination : PyObj) : EdgeInitOutcome :=
  match getAttrGraph source with
  | none => .attributeError
  | some gs =>
    match getAttrGraph destination with
    | none => .attributeError
    | some gd =>
      if gs ≠ gd then .sameGraphException
      else if ¬ isVertexInstance source then .typeError
      else if ¬ isVertexInstance destination then .typeError
      else .passed

/-! ### The algorithm method stubs -/

/-- The declared-but-unimplemented algorithm methods of `Vertex` (lines
261-281) and `Graph` (lines 433-468). -/
inductive AlgoMethod where
  | shortestPathToByHops
  | shortestPathToByWeight
  | pathExistsTo
  | maximumFlowTo
  | iterateBFS
  | iterateDFS
  | checkForNegativeCycles
  | isStronglyConnected
  | getStronglyConnectedComponents
  | travelingSalesmanProblem
  | getBridges
  | getArticulationPoints
  | minimumSpanningTree
deriving DecidableEq

/-- How a call to one of those methods ends: with a raised exception, or by
returning Python `None` normally. -/
inductive CallResult where
  | raised (e : PyError)
  | returnedNone
deriving DecidableEq

/-- Calling an algorithm method on a graph `g` (for the four `Vertex` methods
the body ignores the receiver entirely).  Every body is `raise
NotImplementedError()` except `Graph.IterateDFS` (lines 436-439), whose body
only defines a local class evaluating `[False for _ in range(len(self))]` and
then falls off the end of the method, returning `None`. -/
def callAlgoMethod (g : Graph) (m : AlgoMethod) : CallResult :=
  match m with
  | .iterateDFS =>
      let _visited := List.replicate (graphLen g) false
      .returnedNone
  | _ => .raised .notImplementedError

/-! ### The operations of the public API, for invariant preservation -/

inductive GOp where
  | newGraph (name : Option String)
  | newVertex (vertexID : Option Nat) (data : Option Int) (graph : Option Nat)
  | link (selfV target : Nat) (wt val : Option Int)
  | linkFrom (selfV source : Nat) (wt val : Option Int)
  | linkToNew (selfV : Nat) (vertexID : Option Nat) (data : Option Int)
      (wt val : Option Int)
  | linkFromNew (selfV : Nat) (vertexID : Option Nat) (data : Option Int)
      (wt val : Option Int)
  | setName (gi : Nat) (s : String)
  | setVertexValue (vi : Nat) (x : Option Int)
  | vertexSetItem (vi : Nat) (k : Nat) (x : Int)
  | graphSetItem (gi : Nat) (k : Nat) (x : Int)

/-- Apply one API call to the heap.  Calls are made on existing objects (an
out-of-range index corresponds to no Python program and is a no-op); a raised
exception leaves the heap as the operation returned it. -/
def applyOp (w : World) : GOp → World
  | .newGraph name => { w with graphs := w.graphs ++ [GraphInit name] }
  | .newVertex vid data g =>
      match g with
      | some gi =>
          if gi < w.graphs.length then (VertexInit w vid data (some gi)).1 else w
      | none => (VertexInit w vid data none).1
  | .link u v wt val =>
      if u < w.vertices.length ∧ v < w.vertices.length then
        (LinkToVertex w u v wt val).1
      else w
  | .linkFrom u v wt val =>
      if u < w.vertices.length ∧ v < w.vertices.length then
        (LinkFromVertex w u v wt val).1
      else w
  | .linkToNew u vid data wt val =>
      if u < w.vertices.length then (LinkToNewVertex w u vid data wt val).1 else w
  | .linkFromNew u vid data wt val =>
      if u < w.vertices.length then (LinkFromNewVertex w u vid data wt val).1 else w
  | .setName gi s =>
      if gi < w.graphs.length then setGraph w gi { getGraph w gi with name := some s }
      else w
  | .setVertexValue vi x =>
      if vi < w.vertices.length then setVertex w vi { getVertex w vi with value := x }
      else w
  | .vertexSetItem vi k x =>
      if vi < w.vertices.length then
        setVertex w vi (Vertex.setItem (getVertex w vi) k x)
      else w
  | .graphSetItem gi k x =>
      if gi < w.graphs.length then
        setGraph w gi (Graph.setItem (getGraph w gi) k x)
      else w

def World.empty : World := { graphs := [], vertices := [], edges := [] }

def applyOps (ops : List GOp) : World := ops.foldl applyOp World.empty

/-- A vertex is registered in exactly the storage of its own graph matching
its identity kind. -/
def VertexStored (w : World) (vi : Nat) : Prop :=
  (getVertex w vi).graph < w.graphs.length ∧
  ((getVertex w vi).vid = none →
      vi ∈ (getGraph w (getVertex w vi).graph).verticesWithoutID ∧
      vi ∉ (getGraph w (getVertex w vi).graph).verticesWithID.map Prod.snd) ∧
  (∀ x, (getVertex w vi).vid = some x →
      (x, vi) ∈ (getGraph w (getVertex w vi).graph).verticesWithID ∧
      vi ∉ (getGraph w (getVertex w vi).graph).verticesWithoutID)

/-- A graph's two vertex registries hold existing vertices whose back-reference
is this graph and whose identity kind matches, without duplication. -/
def GraphStorageOK (w : World) (gi : Nat) : Prop :=
  (∀ vi ∈ (getGraph w gi).verticesWithoutID,
      vi < w.vertices.length ∧ (getVertex w vi).graph = gi ∧
      (getVertex w vi).vid = none) ∧
  (∀ p ∈ (getGraph w gi).verticesWithID,
      p.2 < w.vertices.length ∧ (getVertex w p.2).graph = gi ∧
      (getVertex w p.2).vid = some p.1) ∧
  (getGraph w gi).verticesWithoutID.Nodup ∧
  ((getGraph w gi).verticesWithID.map Prod.fst).Nodup ∧
  ((getGraph w gi).verticesWithID.map Prod.snd).Nodup

def WorldInv (w : World) : Prop :=
  (∀ vi, vi < w.vertices.length → VertexStored w vi) ∧
  (∀ gi, gi < w.graphs.length → GraphStorageOK w gi)

/-! ### The traversal generators -/

variable {V : Type}

/-- Models `visited.add(x)` on a Python set represented by its membership list. -/
def setAdd [DecidableEq V] (l : List V) (x : V) : List V :=
  if x ∈ l then l else l ++ [x]

/-- One pass of the successor scan shared by both loops of
`IterateVertexesBFS` (lines 222-226 and 232-236): walk the successor list,
enqueue each destination not yet visited and mark it visited at enqueue time.
(In the second loop the source also calls `visited.add` on already-visited
destinations, a set no-op.) -/
def bfsScan [DecidableEq V] : List V → List V → List V → List V × List V
  | [], visited, queue => (visited, queue)
  | d :: rest, visited, queue =>
      if d ∈ visited then bfsScan rest visited queue
      else bfsScan rest (visited ++ [d]) (queue ++ [d])

/-- The batch of vertices a scan enqueues (and marks visited). -/
def newElems [DecidableEq V] : List V → List V → List V
  | [], _ => []
  | d :: rest, visited =>
      if d ∈ visited then newElems rest visited
      else d :: newElems rest (visited ++ [d])

/-- The `while queue:` loop of `IterateVertexesBFS` (lines 228-236): dequeue,
yield, redundantly re-add to `visited` (line 231), scan the successors.
`none` means the fuel ran out first. -/
def bfsLoop [DecidableEq V] (out : V → List V) :
    Nat → List V → List V → Option (List V)
  | _, _, [] => some []
  | 0, _, _ :: _ => none
  | fuel + 1, visited, v :: q =>
      let p := bfsScan (out v) (setAdd visited v) q
      (bfsLoop out fuel p.1 p.2).map (fun ys => v :: ys)

/-- Embeds `Vertex.IterateVertexesBFS` (lines 216-236): yield `self`, mark it
visited, scan `self`'s successors, then run the queue loop. -/
def IterateVertexesBFS [DecidableEq V] (out : V → List V) (fuel : Nat) (s : V) :
    Option (List V) :=
  (bfsLoop out fuel (bfsScan (out s) [s] []).1 (bfsScan (out s) [s] []).2).map
    (fun ys => s :: ys)

/-- Holds when `v` is reachable from `s` in exactly `n` steps along `out`. -/
def reachN (out : V → List V) : Nat → V → V → Prop
  | 0, s, v => v = s
  | n + 1, s, v => ∃ u, reachN out n s u ∧ v ∈ out u

/-- Holds when `v` is reachable from `s` (in any number of steps). -/
def Reaches (out : V → List V) (s v : V) : Prop := ∃ n, reachN out n s v

/-- The BFS distance from `s` to `v`: the least step count reaching `v`
(`0` for unreachable `v`, which is never relevant below). -/
noncomputable def bfsDist (out : V → List V) (s v : V) : Nat :=
  sInf { n | reachN out n s v }

/-- The `while True:` loop of `IterateVertexesDFS` (lines 246-259): the stack
holds the remaining portion of one outbound-edge cursor per active vertex.
`next` on the top cursor either skips a visited destination, or marks the
destination visited, yields it and pushes its cursor (the source only pushes a
nonempty cursor, line 253); an exhausted cursor is popped and an empty stack
ends the generator. -/
def dfsLoop [DecidableEq V] (out : V → List V) :
    Nat → List V → List (List V) → Option (List V × List V)
  | _, visited, [] => some ([], visited)
  | 0, _, _ :: _ => none
  | fuel + 1, visited, [] :: rest => dfsLoop out fuel visited rest
  | fuel + 1, visited, (d :: ds) :: rest =>
      if d ∈ visited then dfsLoop out fuel visited (ds :: rest)
      else
        (dfsLoop out fuel (visited ++ [d])
            (if out d = [] then ds :: rest else out d :: ds :: rest)).map
          (fun p => (d :: p.1, p.2))

/-- Embeds `Vertex.IterateVertexesDFS` (lines 238-259): yield `self`, mark it
visited, push `self`'s outbound cursor, run the loop. -/
def IterateVertexesDFS [DecidableEq V] (out : V → List V) (fuel : Nat) (s : V) :
    Option (List V) :=
  (dfsLoop out fuel [s] [out s]).map (fun p => s :: p.1)

/-- Reference recursion for the DFS preorder: visit each listed successor in
order, entering an unvisited one before moving on (threading the visited set,
and returning it). -/
def dfsRec [DecidableEq V] (out : V → List V) :
    Nat → List V → List V → Option (List V × List V)
  | _, visited, [] => some ([], visited)
  | 0, _, _ :: _ => none
  | fuel + 1, visited, d :: rest =>
      if d ∈ visited then dfsRec out fuel visited rest
      else
        match dfsRec out fuel (visited ++ [d]) (out d) with
        | none => none
        | some (ys₁, vis₁) =>
          match dfsRec out fuel vis₁ rest with
          | none => none
          | some (ys₂, vis₂) => some (d :: (ys₁ ++ ys₂), vis₂)

/-- The recursive preorder from a start vertex: the start first, then its
successor exploration. -/
def DFSPreorder [DecidableEq V] (out : V → List V) (fuel : Nat) (s : V) :
    Option (List V) :=
  (dfsRec out fuel [s] (out s)).map (fun p => s :: p.1)

/-- Total outbound degree over a vertex list (a fuel budget ingredient). -/
def outSum (out : V → List V) (univ : List V) : Nat :=
  (univ.map (fun v => (out v).length)).sum

/-- A two-vertex path graph `0 → 1`, used to instantiate the traversal
theorems. -/
def outPath2 : Nat → List Nat := fun v => if v = 0 then [1] else []

/-- A heap with one graph and two anonymous vertices of that graph, used to
instantiate the linking theorems. -/
def wPair : World :=
  { graphs := [{ name := none, verticesWithID := [],
                 verticesWithoutID := [0, 1], edgesWithID := [],
                 edgesWithoutID := [], dict := [] }],
    vertices := [mkVertex 0 none none, mkVertex 0 none none],
    edges := [] }

/-- A heap whose single graph holds one vertex with identity `5`, used to
instantiate the duplicate-identity theorem. -/
def wDup : World :=
  { graphs := [{ name := none, verticesWithID := [(5, 0)],
                 verticesWithoutID := [], edgesWithID := [],
                 edgesWithoutID := [], dict := [] }],
    vertices := [mkVertex 0 (some 5) none],
    edges := [] }

/-- A heap with two graphs and one anonymous vertex in each, used to
instantiate the cross-graph failure theorem. -/
def wCross : World :=
  { graphs := [{ name := none, verticesWithID := [], verticesWithoutID := [0],
                 edgesWithID := [], edgesWithoutID := [], dict := [] },
               { name := none, verticesWithID := [], verticesWithoutID := [1],
                 edgesWithID := [], edgesWithoutID := [], dict := [] }],
    vertices := [mkVertex 0 none none, mkVertex 1 none none],
    edges := [] }

end PyG

namespace PyG

/-! ## Helper lemmas on list access -/

theorem getD_append_lt {α : Type} [Inhabited α] (l m : List α) (i : Nat)
    (h : i < l.length) : (l ++ m).getD i default = l.getD i default := by
  induction l generalizing i with
  | nil => cases h
  | cons a t ih =>
    cases i with
    | zero => rfl
    | succ n => exact ih n (Nat.lt_of_succ_lt_succ h)

theorem getD_append_self {α : Type} [Inhabited α] (l : List α) (a : α) :
    (l ++ [a]).getD l.length default = a := by
  induction l with
  | nil => rfl
  | cons b t ih => exact ih

theorem getD_set_self {α : Type} [Inhabited α] (l : List α) (i : Nat) (a : α)
    (h : i < l.length) : (l.set i a).getD i default = a := by
  induction l generalizing i with
  | nil => cases h
  | cons b t ih =>
    cases i with
    | zero => rfl
    | succ n => exact ih n (Nat.lt_of_succ_lt_succ h)

theorem getD_set_ne {α : Type} [Inhabited α] (l : List α) (i j : Nat) (a : α)
    (h : i ≠ j) : (l.set i a).getD j default = l.getD j default := by
  induction l generalizing i j with
  | nil => rfl
  | cons b t ih =>
    cases i with
    | zero =>
      cases j with
      | zero => exact absurd rfl h
      | succ m => rfl
    | succ n =>
      cases j with
      | zero => rfl
      | succ m => exact ih n m (fun hnm => h (by rw [hnm]))

theorem nodup_length_le {α : Type} [DecidableEq α] {l u : List α}
    (hn : l.Nodup) (hsub : ∀ x ∈ l, x ∈ u) : l.length ≤ u.length := by
  calc l.length = l.toFinset.card := (List.toFinset_card_of_nodup hn).symm
    _ ≤ u.toFinset.card := Finset.card_le_card (fun x hx =>
        List.mem_toFinset.mpr (hsub x (List.mem_toFinset.mp hx)))
    _ ≤ u.length := List.toFinset_card_le u

theorem nodup_length_eq {α : Type} [DecidableEq α] {l₁ l₂ : List α}
    (h1 : l₁.Nodup) (h2 : l₂.Nodup) (h : ∀ x, x ∈ l₁ ↔ x ∈ l₂) :
    l₁.length = l₂.length :=
  Nat.le_antisymm (nodup_length_le h1 (fun x hx => (h x).mp hx))
    (nodup_length_le h2 (fun x hx => (h x).mpr hx))

/-! ## C10: reachability of the `TypeError` branches of `Edge.__init__` -/

/-- Counterexample to C10: a duck-typed non-`Vertex` source carrying a
`_graph` attribute equal to the destination's graph passes the same-graph
comparison at line 329, and the subsequent `isinstance(source, Vertex)` check
then raises `TypeError` at line 333 — so `Edge` construction can raise
`TypeError` and the two branches are not unreachable for every pair of
arguments. -/
theorem C10_type_error_reachable :
    EdgeInitChecks (PyObj.duckObj 0) (PyObj.vertexObj 0) =
      EdgeInitOutcome.typeError := by decide

/-- C10 (amended): the same-graph comparison of `Edge.__init__` is evaluated
before the two `isinstance` checks, so an argument without a `_graph`
attribute fails with `AttributeError` first, arguments drawn from the
repository's own kinds never reach the `TypeError` branches, and two genuine
vertices of one graph pass every check; the `TypeError` branches execute
exactly when both arguments expose the same `_graph` value and at least one
of them is not a `Vertex` instance, which requires a duck-typed foreign
argument. -/
theorem C10_edge_ctor_type_error_needs_duck (s d : PyObj) :
    (EdgeInitChecks s d = EdgeInitOutcome.typeError ↔
      (∃ g, getAttrGraph s = some g ∧ getAttrGraph d = some g ∧
        (isVertexInstance s = false ∨ isVertexInstance d = false))) ∧
    (getAttrGraph s = none →
      EdgeInitChecks s d = EdgeInitOutcome.attributeError) ∧
    (isRepositoryKind s = true → isRepositoryKind d = true →
      EdgeInitChecks s d ≠ EdgeInitOutcome.typeError) ∧
    (∀ g, EdgeInitChecks (PyObj.vertexObj g) (PyObj.vertexObj g) =
      EdgeInitOutcome.passed) := by
  refine ⟨?_, ?_, ?_, fun g => by
    simp [EdgeInitChecks, getAttrGraph, isVertexInstance]⟩
  · cases s <;> cases d <;>
      simp [EdgeInitChecks, getAttrGraph, isVertexInstance] <;>
      (try split) <;> (try simp_all) <;> (try exact eq_comm)
  · cases s <;> cases d <;> simp [EdgeInitChecks, getAttrGraph]
  · cases s <;> cases d <;>
      simp [EdgeInitChecks, getAttrGraph, isVertexInstance, isRepositoryKind] <;>
      (try split) <;> (try simp_all) <;> (try exact eq_comm)

/-- Witness for C10 at concrete arguments: an `Edge` object used as source
fails the `_graph` read with `AttributeError`, and a repository-kind pair
never yields `TypeError`. -/
theorem C10_edge_ctor_type_error_needs_duck_witness :
    EdgeInitChecks PyObj.edgeObj (PyObj.vertexObj 0) =
      EdgeInitOutcome.attributeError ∧
    EdgeInitChecks PyObj.edgeObj (PyObj.vertexObj 0) ≠
      EdgeInitOutcome.typeError :=
  ⟨(C10_edge_ctor_type_error_needs_duck PyObj.edgeObj (PyObj.vertexObj 0)).2.1
      (by decide),
   (C10_edge_ctor_type_error_needs_duck PyObj.edgeObj (PyObj.vertexObj 0)).2.2.1
      (by decide) (by decide)⟩

/-! ## C3: the algorithm stubs -/

/-- C3: all the declared-but-unimplemented algorithm methods raise
`NotImplementedError` when called — except `Graph.IterateDFS`, whose body only
declares a stub iterator class and then returns `None` normally, so the claim
fails on that one method. -/
theorem C3_stub_methods (g : Graph) :
    (∀ m : AlgoMethod, m ≠ AlgoMethod.iterateDFS →
      callAlgoMethod g m = CallResult.raised PyError.notImplementedError) ∧
    callAlgoMethod g AlgoMethod.iterateDFS = CallResult.returnedNone := by
  refine ⟨fun m hm => ?_, rfl⟩
  cases m <;> first | rfl | exact absurd rfl hm

/-- Witness for C3 at a concrete graph and method. -/
theorem C3_stub_methods_witness :
    (AlgoMethod.checkForNegativeCycles ≠ AlgoMethod.iterateDFS ∧
     callAlgoMethod (GraphInit none) AlgoMethod.checkForNegativeCycles =
       CallResult.raised PyError.notImplementedError) ∧
    callAlgoMethod (GraphInit none) AlgoMethod.iterateDFS =
      CallResult.returnedNone :=
  ⟨⟨by decide, (C3_stub_methods (GraphInit none)).1 _ (by decide)⟩,
   (C3_stub_methods (GraphInit none)).2⟩

/-! ## C1: the linking operations misplace weight and value -/

/-- C1: on the two-vertex heap `wPair`, `LinkToVertex` with `edgeWeight = 5`
and `edgeValue = 7` succeeds but — because the call
`Edge(self, vertex, edgeWeight, edgeValue)` passes `edgeWeight` into the
constructor's `edgeID` slot and `edgeValue` into its `weight` slot — the
created edge has `ID = 5`, `Weight = 7` and `Value = None`, not `Weight = 5`
and `Value = 7` as the claim states.  The other three linking operations show
the same shift. -/
theorem C1_link_weight_value_shifted :
    (LinkToVertex wPair 0 1 (some 5) (some 7)).2 = Except.ok () ∧
    (getEdge (LinkToVertex wPair 0 1 (some 5) (some 7)).1 0).eid = some 5 ∧
    (getEdge (LinkToVertex wPair 0 1 (some 5) (some 7)).1 0).weight = some 7 ∧
    (getEdge (LinkToVertex wPair 0 1 (some 5) (some 7)).1 0).value = none ∧
    (getEdge (LinkToVertex wPair 0 1 (some 5) (some 7)).1 0).weight ≠ some 5 ∧
    (getEdge (LinkToVertex wPair 0 1 (some 5) (some 7)).1 0).value ≠ some 7 ∧
    (getEdge (LinkFromVertex wPair 0 1 (some 5) (some 7)).1 0).weight = some 7 ∧
    (getEdge (LinkFromVertex wPair 0 1 (some 5) (some 7)).1 0).value = none ∧
    (getEdge (LinkToNewVertex wPair 0 none none (some 5) (some 7)).1 0).weight = some 7 ∧
    (getEdge (LinkToNewVertex wPair 0 none none (some 5) (some 7)).1 0).value = none ∧
    (getEdge (LinkFromNewVertex wPair 0 none none (some 5) (some 7)).1 0).weight = some 7 ∧
    (getEdge (LinkFromNewVertex wPair 0 none none (some 5) (some 7)).1 0).value = none := by
  refine ⟨rfl, rfl, rfl, rfl, ?_, ?_, rfl, rfl, rfl, rfl, rfl, rfl⟩
  · intro h
    have : (some (7 : Int)) = some 5 := by
      rw [show (getEdge (LinkToVertex wPair 0 1 (some 5) (some 7)).1 0).weight
            = some 7 from rfl] at h
      exact h
    simp at this
  · intro h
    have : (none : Option Int) = some 7 := by
      rw [show (getEdge (LinkToVertex wPair 0 1 (some 5) (some 7)).1 0).value
            = none from rfl] at h
      exact h
    simp at this

/-! ## C2: edges are not recorded in the graph's edge registries -/

/-- Counterexample to C2 as stated: on the two-vertex heap `wPair`, a
successful `LinkToVertex` creates an edge that is appended to the source's
outbound list and the destination's inbound list, yet both of the owning
graph's edge registries remain empty — the edge is never added to the graph's
edge storage, so the claimed conjunction fails. -/
theorem C2_graph_edge_registries_stay_empty :
    (LinkToVertex wPair 0 1 none none).2 = Except.ok () ∧
    ((LinkToVertex wPair 0 1 none none).1).edges.length = 1 ∧
    (getVertex (LinkToVertex wPair 0 1 none none).1 0).outbound = [0] ∧
    (getVertex (LinkToVertex wPair 0 1 none none).1 1).inbound = [0] ∧
    (getGraph (LinkToVertex wPair 0 1 none none).1 0).edgesWithID = [] ∧
    (getGraph (LinkToVertex wPair 0 1 none none).1 0).edgesWithoutID = [] :=
  ⟨rfl, rfl, rfl, rfl, rfl, rfl⟩

end PyG

namespace PyG

/-! ## Small access lemmas for the heap -/

theorem getVertex_setVertex_self (w : World) (vi : Nat) (x : Vertex)
    (h : vi < w.vertices.length) : getVertex (setVertex w vi x) vi = x :=
  getD_set_self _ _ _ h

theorem getVertex_setVertex_ne (w : World) (vi vj : Nat) (x : Vertex)
    (h : vi ≠ vj) : getVertex (setVertex w vi x) vj = getVertex w vj :=
  getD_set_ne _ _ _ _ h

theorem setVertex_vertices_length (w : World) (vi : Nat) (x : Vertex) :
    (setVertex w vi x).vertices.length = w.vertices.length := by
  simp [setVertex]

/-! ## C6: duplicate vertex identity is rejected without mutation -/

/-- C6: constructing a vertex whose identity `x` is already registered in the
target graph raises `ValueError` and leaves the heap — in particular the
graph's two vertex registries and its `len()` — exactly as it was. -/
theorem C6_duplicate_identity_rejected (w : World) (gi x : Nat) (d : Option Int)
    (hx : x ∈ (getGraph w gi).verticesWithID.map Prod.fst) :
    VertexInit w (some x) d (some gi) = (w, Except.error PyError.valueError) ∧
    getGraph (VertexInit w (some x) d (some gi)).1 gi = getGraph w gi ∧
    graphLen (getGraph (VertexInit w (some x) d (some gi)).1 gi)
      = graphLen (getGraph w gi) ∧
    (VertexInit w (some x) d (some gi)).1.vertices = w.vertices := by
  have h : VertexInit w (some x) d (some gi) = (w, .error .valueError) := by
    simp [VertexInit, hx]
  exact ⟨h, by rw [h], by rw [h], by rw [h]⟩

/-- Witness for C6 on the one-vertex heap `wDup`, whose graph already maps
identity `5`. -/
theorem C6_duplicate_identity_rejected_witness :
    (5 ∈ (getGraph wDup 0).verticesWithID.map Prod.fst) ∧
    (VertexInit wDup (some 5) none (some 0)
      = (wDup, Except.error PyError.valueError) ∧
     getGraph (VertexInit wDup (some 5) none (some 0)).1 0 = getGraph wDup 0 ∧
     graphLen (getGraph (VertexInit wDup (some 5) none (some 0)).1 0)
       = graphLen (getGraph wDup 0) ∧
     (VertexInit wDup (some 5) none (some 0)).1.vertices = wDup.vertices) :=
  ⟨by decide, C6_duplicate_identity_rejected wDup 0 5 none (by decide)⟩

/-! ## C7: cross-graph edges are rejected without mutation -/

/-- C7: an edge between vertices of two distinct graphs is rejected — both by
the raw constructor and through `LinkToVertex` / `LinkFromVertex` — with a
bare `Exception`, and the heap, in particular both vertices' edge lists, is
unchanged. -/
theorem C7_cross_graph_link_fails (w : World) (u v : Nat) (wt val : Option Int)
    (hu : u < w.vertices.length) (hv : v < w.vertices.length)
    (hg : (getVertex w u).graph ≠ (getVertex w v).graph) :
    EdgeInit w u v wt val none = (w, Except.error PyError.exception) ∧
    LinkToVertex w u v wt val = (w, Except.error PyError.exception) ∧
    LinkFromVertex w v u wt val = (w, Except.error PyError.exception) ∧
    (getVertex (LinkToVertex w u v wt val).1 u).outbound
      = (getVertex w u).outbound ∧
    (getVertex (LinkToVertex w u v wt val).1 v).inbound
      = (getVertex w v).inbound := by
  have he : EdgeInit w u v wt val none = (w, .error .exception) := by
    simp [EdgeInit, hg]
  have hl : LinkToVertex w u v wt val = (w, .error .exception) := by
    simp [LinkToVertex, he]
  have hf : LinkFromVertex w v u wt val = (w, .error .exception) := by
    simp [LinkFromVertex, he]
  exact ⟨he, hl, hf, by rw [hl], by rw [hl]⟩

/-- Witness for C7 on the two-graph heap `wCross`. -/
theorem C7_cross_graph_link_fails_witness :
    ((0 : Nat) < wCross.vertices.length ∧ (1 : Nat) < wCross.vertices.length ∧
     (getVertex wCross 0).graph ≠ (getVertex wCross 1).graph) ∧
    (EdgeInit wCross 0 1 none none none = (wCross, Except.error PyError.exception) ∧
     LinkToVertex wCross 0 1 none none
       = (wCross, Except.error PyError.exception) ∧
     LinkFromVertex wCross 1 0 none none
       = (wCross, Except.error PyError.exception) ∧
     (getVertex (LinkToVertex wCross 0 1 none none).1 0).outbound
       = (getVertex wCross 0).outbound ∧
     (getVertex (LinkToVertex wCross 0 1 none none).1 1).inbound
       = (getVertex wCross 1).inbound) :=
  ⟨⟨by decide, by decide, by decide⟩,
   C7_cross_graph_link_fails wCross 0 1 none none (by decide) (by decide)
     (by decide)⟩

/-! ## C2 (amended): what a successful link does append -/

/-- C2 as amended: a successful `LinkToVertex` appends the new edge to the
source's outbound list and to the destination's inbound list, but the graph's
edge registries (indeed every graph object) are left unchanged — the source
never records edges in the graph's edge storage. -/
theorem C2_link_appends_registries_unchanged (w : World) (u v : Nat)
    (wt val : Option Int) (hu : u < w.vertices.length)
    (hv : v < w.vertices.length)
    (hg : (getVertex w u).graph = (getVertex w v).graph) :
    (LinkToVertex w u v wt val).2 = Except.ok () ∧
    (getVertex (LinkToVertex w u v wt val).1 u).outbound
      = (getVertex w u).outbound ++ [w.edges.length] ∧
    (getVertex (LinkToVertex w u v wt val).1 v).inbound
      = (getVertex w v).inbound ++ [w.edges.length] ∧
    getEdge (LinkToVertex w u v wt val).1 w.edges.length
      = mkEdge u v wt val none ∧
    (LinkToVertex w u v wt val).1.graphs = w.graphs := by
  have hred : LinkToVertex w u v wt val
      = (appendInbound
          (appendOutbound { w with edges := w.edges ++ [mkEdge u v wt val none] }
            u w.edges.length)
          v w.edges.length, Except.ok ()) := by
    simp [LinkToVertex, EdgeInit, hg]
  rw [hred]
  by_cases huv : u = v
  · subst huv
    have h1 : getVertex
        (appendOutbound { w with edges := w.edges ++ [mkEdge u u wt val none] }
          u w.edges.length) u
        = { getVertex w u with
            outbound := (getVertex w u).outbound ++ [w.edges.length] } := by
      unfold appendOutbound
      exact getVertex_setVertex_self _ _ _ hu
    have h2 : getVertex (appendInbound
        (appendOutbound { w with edges := w.edges ++ [mkEdge u u wt val none] }
          u w.edges.length) u w.edges.length) u
        = { getVertex w u with
            outbound := (getVertex w u).outbound ++ [w.edges.length],
            inbound := (getVertex w u).inbound ++ [w.edges.length] } := by
      unfold appendInbound
      rw [getVertex_setVertex_self _ _ _
        (by simpa [appendOutbound, setVertex] using hu), h1]
    refine ⟨rfl, ?_, ?_, getD_append_self _ _, rfl⟩
    · rw [h2]
    · rw [h2]
  · have h1 : getVertex
        (appendOutbound { w with edges := w.edges ++ [mkEdge u v wt val none] }
          u w.edges.length) u
        = { getVertex w u with
            outbound := (getVertex w u).outbound ++ [w.edges.length] } := by
      unfold appendOutbound
      exact getVertex_setVertex_self _ _ _ hu
    have h1v : getVertex
        (appendOutbound { w with edges := w.edges ++ [mkEdge u v wt val none] }
          u w.edges.length) v = getVertex w v := by
      unfold appendOutbound
      exact getVertex_setVertex_ne _ _ _ _ huv
    have h2u : getVertex (appendInbound
        (appendOutbound { w with edges := w.edges ++ [mkEdge u v wt val none] }
          u w.edges.length) v w.edges.length) u
        = { getVertex w u with
            outbound := (getVertex w u).outbound ++ [w.edges.length] } := by
      unfold appendInbound
      rw [getVertex_setVertex_ne _ _ _ _ (fun hvu => huv hvu.symm), h1]
    have h2v : getVertex (appendInbound
        (appendOutbound { w with edges := w.edges ++ [mkEdge u v wt val none] }
          u w.edges.length) v w.edges.length) v
        = { getVertex w v with
            inbound := (getVertex w v).inbound ++ [w.edges.length] } := by
      unfold appendInbound
      rw [getVertex_setVertex_self _ _ _
        (by simpa [appendOutbound, setVertex] using hv), h1v]
    refine ⟨rfl, ?_, ?_, getD_append_self _ _, rfl⟩
    · rw [h2u]
    · rw [h2v]

/-- Witness for the amended C2 on the two-vertex heap `wPair`. -/
theorem C2_link_appends_registries_unchanged_witness :
    ((0 : Nat) < wPair.vertices.length ∧ (1 : Nat) < wPair.vertices.length ∧
     (getVertex wPair 0).graph = (getVertex wPair 1).graph) ∧
    ((LinkToVertex wPair 0 1 none none).2 = Except.ok () ∧
     (getVertex (LinkToVertex wPair 0 1 none none).1 0).outbound
       = (getVertex wPair 0).outbound ++ [wPair.edges.length] ∧
     (getVertex (LinkToVertex wPair 0 1 none none).1 1).inbound
       = (getVertex wPair 1).inbound ++ [wPair.edges.length] ∧
     getEdge (LinkToVertex wPair 0 1 none none).1 wPair.edges.length
       = mkEdge 0 1 none none none ∧
     (LinkToVertex wPair 0 1 none none).1.graphs = wPair.graphs) :=
  ⟨⟨by decide, by decide, by decide⟩,
   C2_link_appends_registries_unchanged wPair 0 1 none none (by decide)
     (by decide) (by decide)⟩

end PyG

namespace PyG

/-! ## Lemmas on the dict model, and C9 -/

theorem pyDictGet_pyDictSet_self {K V : Type} [DecidableEq K]
    (d : List (K × V)) (k : K) (v : V) :
    pyDictGet (pyDictSet d k v) k = Except.ok v := by
  induction d with
  | nil => simp [pyDictSet, pyDictGet, List.find?]
  | cons p t ih =>
    by_cases hp : p.1 = k
    · simp [pyDictSet, pyDictGet, hp, List.find?]
    · have hp' : ¬ k = p.1 := fun h => hp h.symm
      by_cases hm : k ∈ t.map Prod.fst
      · have hset : pyDictSet (p :: t) k v = p :: pyDictSet t k v := by
          simp [pyDictSet, hp, hp', hm]
        rw [hset]
        simpa [pyDictGet, List.find?, hp] using ih
      · have hset : pyDictSet (p :: t) k v = p :: pyDictSet t k v := by
          simp [pyDictSet, hp, hp', hm]
        rw [hset]
        simpa [pyDictGet, List.find?, hp] using ih

theorem map_fst_replace {K V : Type} [DecidableEq K]
    (d : List (K × V)) (k : K) (v : V) :
    (d.map (fun p => if p.1 = k then (p.1, v) else p)).map Prod.fst
      = d.map Prod.fst := by
  induction d with
  | nil => rfl
  | cons p t ih => by_cases hp : p.1 = k <;> simp [hp, ih]

theorem map_fst_pyDictSet_of_mem {K V : Type} [DecidableEq K]
    (d : List (K × V)) (k : K) (v : V) (h : k ∈ d.map Prod.fst) :
    (pyDictSet d k v).map Prod.fst = d.map Prod.fst := by
  unfold pyDictSet
  rw [if_pos h]
  exact map_fst_replace d k v

theorem map_fst_pyDictSet_of_not_mem {K V : Type} [DecidableEq K]
    (d : List (K × V)) (k : K) (v : V) (h : k ∉ d.map Prod.fst) :
    (pyDictSet d k v).map Prod.fst = d.map Prod.fst ++ [k] := by
  unfold pyDictSet
  rw [if_neg h, List.map_append]
  rfl

theorem mem_keys_pyDictSet {K V : Type} [DecidableEq K]
    (d : List (K × V)) (k : K) (v : V) :
    k ∈ (pyDictSet d k v).map Prod.fst := by
  by_cases h : k ∈ d.map Prod.fst
  · rw [map_fst_pyDictSet_of_mem _ _ _ h]; exact h
  · rw [map_fst_pyDictSet_of_not_mem _ _ _ h]
    exact List.mem_append.mpr (Or.inr (List.mem_singleton.mpr rfl))

theorem nodup_keys_pyDictSet {K V : Type} [DecidableEq K]
    (d : List (K × V)) (k : K) (v : V) (hd : (d.map Prod.fst).Nodup) :
    ((pyDictSet d k v).map Prod.fst).Nodup := by
  by_cases h : k ∈ d.map Prod.fst
  · rw [map_fst_pyDictSet_of_mem _ _ _ h]; exact hd
  · rw [map_fst_pyDictSet_of_not_mem _ _ _ h, List.nodup_append]
    exact ⟨hd, List.nodup_singleton k,
      fun a ha hak => h ((List.mem_singleton.mp hak) ▸ ha)⟩

theorem filter_key_length_one {K V : Type} [DecidableEq K]
    (d : List (K × V)) (k : K)
    (hd : (d.map Prod.fst).Nodup) (hm : k ∈ d.map Prod.fst) :
    (d.filter (fun p => decide (p.1 = k))).length = 1 := by
  induction d with
  | nil => simp at hm
  | cons p t ih =>
    simp only [List.map_cons, List.nodup_cons] at hd
    by_cases hp : p.1 = k
    · have hnil : t.filter (fun p => decide (p.1 = k)) = [] := by
        refine List.filter_eq_nil_iff.mpr (fun x hx => ?_)
        simp only [decide_eq_true_eq]
        intro hxk
        exact hd.1 (by
          have hxm : x.1 ∈ t.map Prod.fst := List.mem_map.mpr ⟨x, hx, rfl⟩
          rwa [hxk, ← hp] at hxm)
      simp [List.filter_cons, hp, hnil]
    · have hm' : k ∈ t.map Prod.fst := by
        rw [List.map_cons, List.mem_cons] at hm
        rcases hm with h | h
        · exact absurd h.symm hp
        · exact h
      simpa [List.filter_cons, hp] using ih hd.2 hm'

theorem pyDictDel_ok_eq {K V : Type} [DecidableEq K]
    {d d' : List (K × V)} {k : K} (h : pyDictDel d k = Except.ok d') :
    d' = d.filter (fun p => decide (p.1 ≠ k)) := by
  by_cases hm : k ∈ d.map Prod.fst
  · unfold pyDictDel at h
    rw [if_pos hm] at h
    injection h with h
    exact h.symm
  · unfold pyDictDel at h
    rw [if_neg hm] at h
    cases h

theorem pyDictGet_filter_ne {K V : Type} [DecidableEq K]
    (d : List (K × V)) (k : K) :
    pyDictGet (d.filter (fun p => decide (p.1 ≠ k))) k
      = Except.error PyError.keyError := by
  have hnone : (d.filter (fun p => decide (p.1 ≠ k))).find?
      (fun p => decide (p.1 = k)) = none := by
    rw [List.find?_eq_none]
    intro x hx
    have hne := (List.mem_filter.mp hx).2
    simp only [decide_eq_true_eq] at hne ⊢
    exact hne
  unfold pyDictGet
  rw [hnone]

/-- C9: on every side-table (the vertex, edge and graph `__getitem__` /
`__setitem__` / `__delitem__` all act on one underlying dict): setting a key
twice leaves exactly one entry for that key and a later get returns the
latest value; deleting then getting the key raises `KeyError`; getting or
deleting an absent key raises `KeyError` (and, being rejected, returns no
modified table); and the set/delete operations preserve key uniqueness. -/
theorem C9_side_table_semantics {K V : Type} [DecidableEq K]
    (d : List (K × V)) (k : K) (v1 v2 : V)
    (hd : (d.map Prod.fst).Nodup) :
    pyDictGet (pyDictSet d k v1) k = Except.ok v1 ∧
    pyDictGet (pyDictSet (pyDictSet d k v1) k v2) k = Except.ok v2 ∧
    ((pyDictSet (pyDictSet d k v1) k v2).filter
        (fun p => decide (p.1 = k))).length = 1 ∧
    (∀ d', pyDictDel d k = Except.ok d' →
      pyDictGet d' k = Except.error PyError.keyError) ∧
    (k ∉ d.map Prod.fst →
      pyDictGet d k = Except.error PyError.keyError ∧
      pyDictDel d k = Except.error PyError.keyError) ∧
    ((pyDictSet d k v1).map Prod.fst).Nodup ∧
    (∀ d', pyDictDel d k = Except.ok d' → (d'.map Prod.fst).Nodup) ∧
    (∀ (vo : Vertex) (kk : Nat) (xx : Int),
      (Vertex.setItem vo kk xx).dict = pyDictSet vo.dict kk xx ∧
      Vertex.getItem vo kk = pyDictGet vo.dict kk ∧
      Vertex.delItem vo kk = (pyDictDel vo.dict kk).map
        (fun t => { vo with dict := t })) ∧
    (∀ (eo : Edge) (kk : Nat) (xx : Int),
      (Edge.setItem eo kk xx).dict = pyDictSet eo.dict kk xx ∧
      Edge.getItem eo kk = pyDictGet eo.dict kk ∧
      Edge.delItem eo kk = (pyDictDel eo.dict kk).map
        (fun t => { eo with dict := t })) ∧
    (∀ (go : Graph) (kk : Nat) (xx : Int),
      (Graph.setItem go kk xx).dict = pyDictSet go.dict kk xx ∧
      Graph.getItem go kk = pyDictGet go.dict kk ∧
      Graph.delItem go kk = (pyDictDel go.dict kk).map
        (fun t => { go with dict := t })) := by
  refine ⟨pyDictGet_pyDictSet_self d k v1,
    pyDictGet_pyDictSet_self (pyDictSet d k v1) k v2,
    filter_key_length_one _ _
      (nodup_keys_pyDictSet _ _ _ (nodup_keys_pyDictSet _ _ _ hd))
      (mem_keys_pyDictSet _ _ _),
    fun d' h => ?_, fun habs => ?_, nodup_keys_pyDictSet _ _ _ hd,
    fun d' h => ?_,
    fun vo kk xx => ⟨rfl, rfl, rfl⟩,
    fun eo kk xx => ⟨rfl, rfl, rfl⟩,
    fun go kk xx => ⟨rfl, rfl, rfl⟩⟩
  · rw [pyDictDel_ok_eq h]
    exact pyDictGet_filter_ne d k
  · constructor
    · have hnone : d.find? (fun p => decide (p.1 = k)) = none := by
        rw [List.find?_eq_none]
        intro x hx
        simp only [decide_eq_true_eq]
        intro hxk
        exact habs (List.mem_map.mpr ⟨x, hx, hxk⟩)
      unfold pyDictGet
      rw [hnone]
    · unfold pyDictDel
      rw [if_neg habs]
  · rw [pyDictDel_ok_eq h]
    have hsub : List.Sublist
        ((d.filter (fun p => decide (p.1 ≠ k))).map Prod.fst)
        (d.map Prod.fst) :=
      List.Sublist.map Prod.fst (List.filter_sublist d)
    exact List.Nodup.sublist hsub hd

/-- Witness for C9 on a concrete one-entry table. -/
theorem C9_side_table_semantics_witness :
    (([((1 : Nat), (10 : Int))]).map Prod.fst).Nodup ∧
    (pyDictGet (pyDictSet [((1 : Nat), (10 : Int))] 2 20) 2 = Except.ok 20 ∧
     pyDictGet (pyDictSet (pyDictSet [((1 : Nat), (10 : Int))] 2 20) 2 21) 2
       = Except.ok 21 ∧
     ((pyDictSet (pyDictSet [((1 : Nat), (10 : Int))] 2 20) 2 21).filter
         (fun p => decide (p.1 = 2))).length = 1 ∧
     (∀ d', pyDictDel [((1 : Nat), (10 : Int))] 2 = Except.ok d' →
       pyDictGet d' 2 = Except.error PyError.keyError) ∧
     ((2 : Nat) ∉ ([((1 : Nat), (10 : Int))]).map Prod.fst →
       pyDictGet [((1 : Nat), (10 : Int))] 2
         = Except.error PyError.keyError ∧
       pyDictDel [((1 : Nat), (10 : Int))] 2
         = Except.error PyError.keyError) ∧
     ((pyDictSet [((1 : Nat), (10 : Int))] 2 20).map Prod.fst).Nodup ∧
     (∀ d', pyDictDel [((1 : Nat), (10 : Int))] 2 = Except.ok d' →
       (d'.map Prod.fst).Nodup) ∧
     (∀ (vo : Vertex) (kk : Nat) (xx : Int),
       (Vertex.setItem vo kk xx).dict = pyDictSet vo.dict kk xx ∧
       Vertex.getItem vo kk = pyDictGet vo.dict kk ∧
       Vertex.delItem vo kk = (pyDictDel vo.dict kk).map
         (fun t => { vo with dict := t })) ∧
     (∀ (eo : Edge) (kk : Nat) (xx : Int),
       (Edge.setItem eo kk xx).dict = pyDictSet eo.dict kk xx ∧
       Edge.getItem eo kk = pyDictGet eo.dict kk ∧
       Edge.delItem eo kk = (pyDictDel eo.dict kk).map
         (fun t => { eo with dict := t })) ∧
     (∀ (go : Graph) (kk : Nat) (xx : Int),
       (Graph.setItem go kk xx).dict = pyDictSet go.dict kk xx ∧
       Graph.getItem go kk = pyDictGet go.dict kk ∧
       Graph.delItem go kk = (pyDictDel go.dict kk).map
         (fun t => { go with dict := t }))) :=
  ⟨by decide, C9_side_table_semantics [((1 : Nat), (10 : Int))] 2 20 21 (by decide)⟩

end PyG

namespace PyG

/-! ## Heap access lemmas for the invariant proofs -/

theorem getGraph_setVertex (w : World) (vi : Nat) (x : Vertex) (gi : Nat) :
    getGraph (setVertex w vi x) gi = getGraph w gi := rfl

theorem getVertex_setGraph (w : World) (gi : Nat) (g : Graph) (vi : Nat) :
    getVertex (setGraph w gi g) vi = getVertex w vi := rfl

theorem setGraph_graphs_length (w : World) (gi : Nat) (g : Graph) :
    (setGraph w gi g).graphs.length = w.graphs.length := by
  simp [setGraph]

theorem getGraph_setGraph_self (w : World) (gi : Nat) (g : Graph)
    (h : gi < w.graphs.length) : getGraph (setGraph w gi g) gi = g :=
  getD_set_self _ _ _ h

theorem getGraph_setGraph_ne (w : World) (gi gj : Nat) (g : Graph)
    (h : gi ≠ gj) : getGraph (setGraph w gi g) gj = getGraph w gj :=
  getD_set_ne _ _ _ _ h

/-! ## Preservation of the storage invariant by each kind of heap update -/

theorem WorldInv_setVertex (w : World) (vi : Nat) (x : Vertex)
    (hvi : vi < w.vertices.length)
    (hg : x.graph = (getVertex w vi).graph)
    (hid : x.vid = (getVertex w vi).vid)
    (hw : WorldInv w) : WorldInv (setVertex w vi x) := by
  have hlen : (setVertex w vi x).vertices.length = w.vertices.length :=
    setVertex_vertices_length w vi x
  have hgv : getVertex (setVertex w vi x) vi = x :=
    getVertex_setVertex_self w vi x hvi
  have hfield : ∀ vj,
      (getVertex (setVertex w vi x) vj).graph = (getVertex w vj).graph ∧
      (getVertex (setVertex w vi x) vj).vid = (getVertex w vj).vid := by
    intro vj
    by_cases h : vj = vi
    · subst h; rw [hgv]; exact ⟨hg, hid⟩
    · rw [getVertex_setVertex_ne w vi vj x (fun e => h e.symm)]
      exact ⟨rfl, rfl⟩
  constructor
  · intro vj hvj
    rw [hlen] at hvj
    have hs := hw.1 vj hvj
    unfold VertexStored at hs ⊢
    rw [(hfield vj).1, (hfield vj).2]
    exact hs
  · intro gj hgj
    obtain ⟨h1, h2, h3, h4, h5⟩ := hw.2 gj hgj
    refine ⟨?_, ?_, h3, h4, h5⟩
    · intro vj hm
      obtain ⟨ha, hb, hc⟩ := h1 vj hm
      exact ⟨by rw [hlen]; exact ha, by rw [(hfield vj).1]; exact hb,
             by rw [(hfield vj).2]; exact hc⟩
    · intro p hm
      obtain ⟨ha, hb, hc⟩ := h2 p hm
      exact ⟨by rw [hlen]; exact ha, by rw [(hfield p.2).1]; exact hb,
             by rw [(hfield p.2).2]; exact hc⟩

theorem WorldInv_setGraph (w : World) (gi : Nat) (g' : Graph)
    (hgi : gi < w.graphs.length)
    (h1 : g'.verticesWithID = (getGraph w gi).verticesWithID)
    (h2 : g'.verticesWithoutID = (getGraph w gi).verticesWithoutID)
    (hw : WorldInv w) : WorldInv (setGraph w gi g') := by
  have hreg1 : ∀ gj, (getGraph (setGraph w gi g') gj).verticesWithID
      = (getGraph w gj).verticesWithID := by
    intro gj
    by_cases h : gi = gj
    · subst h; rw [getGraph_setGraph_self w gi g' hgi, h1]
    · rw [getGraph_setGraph_ne w gi gj g' h]
  have hreg2 : ∀ gj, (getGraph (setGraph w gi g') gj).verticesWithoutID
      = (getGraph w gj).verticesWithoutID := by
    intro gj
    by_cases h : gi = gj
    · subst h; rw [getGraph_setGraph_self w gi g' hgi, h2]
    · rw [getGraph_setGraph_ne w gi gj g' h]
  constructor
  · intro vj hvj
    have hs := hw.1 vj hvj
    unfold VertexStored at hs ⊢
    rw [getVertex_setGraph, setGraph_graphs_length, hreg1, hreg2]
    exact hs
  · intro gj hgj
    rw [setGraph_graphs_length] at hgj
    obtain ⟨ha, hb, hc, hd, he⟩ := hw.2 gj hgj
    unfold GraphStorageOK
    rw [hreg1, hreg2]
    exact ⟨fun vj hm => ha vj hm, fun p hm => hb p hm, hc, hd, he⟩

end PyG

namespace PyG

theorem WorldInv_newGraph (w : World) (g0 : Graph)
    (he1 : g0.verticesWithID = []) (he2 : g0.verticesWithoutID = [])
    (hw : WorldInv w) : WorldInv { w with graphs := w.graphs ++ [g0] } := by
  have hgg : ∀ gj, gj < w.graphs.length →
      getGraph { w with graphs := w.graphs ++ [g0] } gj = getGraph w gj :=
    fun gj h => getD_append_lt _ _ _ h
  constructor
  · intro vj hvj
    obtain ⟨h1, h2, h3⟩ := hw.1 vj hvj
    unfold VertexStored
    rw [show getVertex { w with graphs := w.graphs ++ [g0] } vj
          = getVertex w vj from rfl, hgg _ h1]
    refine ⟨?_, h2, h3⟩
    simp only [List.length_append, List.length_cons, List.length_nil]
    omega
  · intro gj hgj
    simp only [List.length_append, List.length_cons, List.length_nil] at hgj
    by_cases h : gj < w.graphs.length
    · obtain ⟨ha, hb, hc, hd, he⟩ := hw.2 gj h
      unfold GraphStorageOK
      rw [hgg _ h]
      exact ⟨fun vj hm => ha vj hm, fun p hm => hb p hm, hc, hd, he⟩
    · have hgje : gj = w.graphs.length := by omega
      have : getGraph { w with graphs := w.graphs ++ [g0] } gj = g0 := by
        rw [hgje]
        exact getD_append_self _ _
      unfold GraphStorageOK
      rw [this, he1, he2]
      simp

theorem WorldInv_addAnonVertex (w : World) (gi : Nat) (data : Option Int)
    (hgi : gi < w.graphs.length) (hw : WorldInv w) :
    WorldInv (addAnonVertex w gi data) := by
  have hlen : (addAnonVertex w gi data).vertices.length = w.vertices.length + 1 := by
    simp [addAnonVertex]
  have hglen : (addAnonVertex w gi data).graphs.length = w.graphs.length := by
    simp [addAnonVertex]
  have hgvlt : ∀ vj, vj < w.vertices.length →
      getVertex (addAnonVertex w gi data) vj = getVertex w vj :=
    fun vj h => getD_append_lt _ _ _ h
  have hgvnew : getVertex (addAnonVertex w gi data) w.vertices.length
      = mkVertex gi none data := getD_append_self _ _
  have hggi : getGraph (addAnonVertex w gi data) gi
      = { getGraph w gi with verticesWithoutID :=
            (getGraph w gi).verticesWithoutID ++ [w.vertices.length] } :=
    getD_set_self _ _ _ hgi
  have hggne : ∀ gj, gj ≠ gi →
      getGraph (addAnonVertex w gi data) gj = getGraph w gj :=
    fun gj h => getD_set_ne _ _ _ _ (fun e => h e.symm)
  have hsndlt : ∀ p, p ∈ (getGraph w gi).verticesWithID →
      p.2 < w.vertices.length := fun p hp => ((hw.2 gi hgi).2.1 p hp).1
  have hanonlt : ∀ vj, vj ∈ (getGraph w gi).verticesWithoutID →
      vj < w.vertices.length := fun vj hj => ((hw.2 gi hgi).1 vj hj).1
  constructor
  · intro vj hvj
    rw [hlen] at hvj
    by_cases hjn : vj = w.vertices.length
    · subst hjn
      unfold VertexStored
      rw [hgvnew]
      refine ⟨by rw [hglen]; exact hgi, fun _ => ?_, fun x hx => by cases hx⟩
      rw [show (mkVertex gi none data).graph = gi from rfl, hggi]
      constructor
      · exact List.mem_append.mpr (Or.inr (List.mem_singleton.mpr rfl))
      · intro hmem
        obtain ⟨p, hp, hp2⟩ := List.mem_map.mp hmem
        have := hsndlt p hp
        rw [hp2] at this
        exact Nat.lt_irrefl _ this
    · have hvlt : vj < w.vertices.length := by omega
      obtain ⟨h1, h2, h3⟩ := hw.1 vj hvlt
      unfold VertexStored
      rw [hgvlt vj hvlt]
      refine ⟨by rw [hglen]; exact h1, ?_, ?_⟩
      · intro hvid
        obtain ⟨hin, hout⟩ := h2 hvid
        by_cases hXg : (getVertex w vj).graph = gi
        · rw [hXg, hggi]
          constructor
          · exact List.mem_append.mpr (Or.inl (by rw [← hXg]; exact hin))
          · intro hmem
            exact hout (by rw [hXg]; simpa using hmem)
        · rw [hggne _ hXg]
          exact ⟨hin, hout⟩
      · intro x hvid
        obtain ⟨hin, hout⟩ := h3 x hvid
        by_cases hXg : (getVertex w vj).graph = gi
        · rw [hXg, hggi]
          refine ⟨by rw [← hXg]; exact hin, ?_⟩
          intro hmem
          rcases List.mem_append.mp hmem with hm | hm
          · exact hout (by rw [hXg]; exact hm)
          · exact hjn (List.mem_singleton.mp hm)
        · rw [hggne _ hXg]
          exact ⟨hin, hout⟩
  · intro gj hgj
    rw [hglen] at hgj
    obtain ⟨ha, hb, hc, hd, he⟩ := hw.2 gj hgj
    by_cases hgje : gj = gi
    · subst hgje
      unfold GraphStorageOK
      rw [hggi]
      refine ⟨?_, ?_, ?_, hd, he⟩
      · intro vj hm
        rcases List.mem_append.mp hm with hm | hm
        · obtain ⟨hma, hmb, hmc⟩ := ha vj hm
          exact ⟨by rw [hlen]; omega, by rw [hgvlt vj hma]; exact hmb,
                 by rw [hgvlt vj hma]; exact hmc⟩
        · have : vj = w.vertices.length := List.mem_singleton.mp hm
          subst this
          exact ⟨by rw [hlen]; omega, by rw [hgvnew]; rfl,
                 by rw [hgvnew]; rfl⟩
      · intro p hm
        obtain ⟨hma, hmb, hmc⟩ := hb p hm
        exact ⟨by rw [hlen]; omega, by rw [hgvlt p.2 hma]; exact hmb,
               by rw [hgvlt p.2 hma]; exact hmc⟩
      · rw [List.nodup_append]
        exact ⟨hc, List.nodup_singleton _,
          fun a hax hay =>
            Nat.lt_irrefl _ ((List.mem_singleton.mp hay) ▸ hanonlt a hax)⟩
    · unfold GraphStorageOK
      rw [hggne _ hgje]
      refine ⟨?_, ?_, hc, hd, he⟩
      · intro vj hm
        obtain ⟨hma, hmb, hmc⟩ := ha vj hm
        exact ⟨by rw [hlen]; omega, by rw [hgvlt vj hma]; exact hmb,
               by rw [hgvlt vj hma]; exact hmc⟩
      · intro p hm
        obtain ⟨hma, hmb, hmc⟩ := hb p hm
        exact ⟨by rw [hlen]; omega, by rw [hgvlt p.2 hma]; exact hmb,
               by rw [hgvlt p.2 hma]; exact hmc⟩

end PyG

namespace PyG

theorem WorldInv_addIdVertex (w : World) (gi x : Nat) (data : Option Int)
    (hgi : gi < w.graphs.length)
    (hx : x ∉ (getGraph w gi).verticesWithID.map Prod.fst)
    (hw : WorldInv w) : WorldInv (addIdVertex w gi x data) := by
  have hlen : (addIdVertex w gi x data).vertices.length
      = w.vertices.length + 1 := by
    simp [addIdVertex]
  have hglen : (addIdVertex w gi x data).graphs.length = w.graphs.length := by
    simp [addIdVertex]
  have hgvlt : ∀ vj, vj < w.vertices.length →
      getVertex (addIdVertex w gi x data) vj = getVertex w vj :=
    fun vj h => getD_append_lt _ _ _ h
  have hgvnew : getVertex (addIdVertex w gi x data) w.vertices.length
      = mkVertex gi (some x) data := getD_append_self _ _
  have hggi : getGraph (addIdVertex w gi x data) gi
      = { getGraph w gi with verticesWithID :=
            (getGraph w gi).verticesWithID ++ [(x, w.vertices.length)] } :=
    getD_set_self _ _ _ hgi
  have hggne : ∀ gj, gj ≠ gi →
      getGraph (addIdVertex w gi x data) gj = getGraph w gj :=
    fun gj h => getD_set_ne _ _ _ _ (fun e => h e.symm)
  have hsndlt : ∀ p, p ∈ (getGraph w gi).verticesWithID →
      p.2 < w.vertices.length := fun p hp => ((hw.2 gi hgi).2.1 p hp).1
  have hanonlt : ∀ vj, vj ∈ (getGraph w gi).verticesWithoutID →
      vj < w.vertices.length := fun vj hj => ((hw.2 gi hgi).1 vj hj).1
  constructor
  · intro vj hvj
    rw [hlen] at hvj
    by_cases hjn : vj = w.vertices.length
    · subst hjn
      unfold VertexStored
      rw [hgvnew]
      refine ⟨by rw [hglen]; exact hgi, ?_, ?_⟩
      · intro hno
        simp [mkVertex] at hno
      intro y hy
      have hxy : y = x := by
        have hxe : (some x : Option Nat) = some y := hy
        injection hxe with h
        exact h.symm
      subst hxy
      rw [show (mkVertex gi (some y) data).graph = gi from rfl, hggi]
      constructor
      · exact List.mem_append.mpr (Or.inr (List.mem_singleton.mpr rfl))
      · intro hmem
        exact Nat.lt_irrefl _ (hanonlt _ hmem)
    · have hvlt : vj < w.vertices.length := by omega
      obtain ⟨h1, h2, h3⟩ := hw.1 vj hvlt
      unfold VertexStored
      rw [hgvlt vj hvlt]
      refine ⟨by rw [hglen]; exact h1, ?_, ?_⟩
      · intro hvid
        obtain ⟨hin, hout⟩ := h2 hvid
        by_cases hXg : (getVertex w vj).graph = gi
        · rw [hXg, hggi]
          refine ⟨by rw [← hXg]; exact hin, ?_⟩
          intro hmem
          rw [List.map_append] at hmem
          rcases List.mem_append.mp hmem with hm | hm
          · exact hout (by rw [hXg]; exact hm)
          · exact hjn (by simpa using hm)
        · rw [hggne _ hXg]
          exact ⟨hin, hout⟩
      · intro y hvid
        obtain ⟨hin, hout⟩ := h3 y hvid
        by_cases hXg : (getVertex w vj).graph = gi
        · rw [hXg, hggi]
          refine ⟨List.mem_append.mpr (Or.inl (by rw [← hXg]; exact hin)), ?_⟩
          intro hmem
          exact hout (by rw [hXg]; exact hmem)
        · rw [hggne _ hXg]
          exact ⟨hin, hout⟩
  · intro gj hgj
    rw [hglen] at hgj
    obtain ⟨ha, hb, hc, hd, he⟩ := hw.2 gj hgj
    by_cases hgje : gj = gi
    · subst hgje
      unfold GraphStorageOK
      rw [hggi]
      refine ⟨?_, ?_, hc, ?_, ?_⟩
      · intro vj hm
        obtain ⟨hma, hmb, hmc⟩ := ha vj hm
        exact ⟨by rw [hlen]; omega, by rw [hgvlt vj hma]; exact hmb,
               by rw [hgvlt vj hma]; exact hmc⟩
      · intro p hm
        rcases List.mem_append.mp hm with hm | hm
        · obtain ⟨hma, hmb, hmc⟩ := hb p hm
          exact ⟨by rw [hlen]; omega, by rw [hgvlt p.2 hma]; exact hmb,
                 by rw [hgvlt p.2 hma]; exact hmc⟩
        · have : p = (x, w.vertices.length) := List.mem_singleton.mp hm
          subst this
          exact ⟨by rw [hlen]; omega, by rw [hgvnew]; rfl,
                 by rw [hgvnew]; rfl⟩
      · rw [List.map_append, List.nodup_append]
        refine ⟨hd, by simp, ?_⟩
        intro a hax hay
        have hae : a = x := by simpa using hay
        subst hae
        exact hx hax
      · rw [List.map_append, List.nodup_append]
        refine ⟨he, by simp, ?_⟩
        intro a hax hay
        have hax' : a < w.vertices.length := by
          obtain ⟨p, hp, hp2⟩ := List.mem_map.mp hax
          exact hp2 ▸ hsndlt p hp
        have : a = w.vertices.length := by simpa using hay
        omega
    · unfold GraphStorageOK
      rw [hggne _ hgje]
      refine ⟨?_, ?_, hc, hd, he⟩
      · intro vj hm
        obtain ⟨hma, hmb, hmc⟩ := ha vj hm
        exact ⟨by rw [hlen]; omega, by rw [hgvlt vj hma]; exact hmb,
               by rw [hgvlt vj hma]; exact hmc⟩
      · intro p hm
        obtain ⟨hma, hmb, hmc⟩ := hb p hm
        exact ⟨by rw [hlen]; omega, by rw [hgvlt p.2 hma]; exact hmb,
               by rw [hgvlt p.2 hma]; exact hmc⟩

end PyG

namespace PyG

theorem VertexInit_none_eq (w : World) (vid : Option Nat) (data : Option Int) :
    VertexInit w vid data none
      = VertexInit { w with graphs := w.graphs ++ [GraphInit none] } vid data
          (some w.graphs.length) := by
  have hg : getGraph { w with graphs := w.graphs ++ [GraphInit none] }
      w.graphs.length = GraphInit none := getD_append_self _ _
  cases vid with
  | none => rfl
  | some x =>
    have hx : x ∉ (getGraph { w with graphs := w.graphs ++ [GraphInit none] }
        w.graphs.length).verticesWithID.map Prod.fst := by
      rw [hg]
      simp [GraphInit]
    simp [VertexInit, hx]

theorem WorldInv_VertexInit_some (w : World) (gi : Nat) (vid : Option Nat)
    (data : Option Int) (hgi : gi < w.graphs.length) (hw : WorldInv w) :
    WorldInv (VertexInit w vid data (some gi)).1 := by
  cases vid with
  | none => exact WorldInv_addAnonVertex w gi data hgi hw
  | some x =>
    by_cases hx : x ∈ (getGraph w gi).verticesWithID.map Prod.fst
    · have h : (VertexInit w (some x) data (some gi)).1 = w := by
        simp [VertexInit, hx]
      rw [h]; exact hw
    · have h : (VertexInit w (some x) data (some gi)).1
          = addIdVertex w gi x data := by
        simp [VertexInit, hx, addIdVertex, setGraph]
      rw [h]
      exact WorldInv_addIdVertex w gi x data hgi hx hw

theorem WorldInv_VertexInit_none (w : World) (vid : Option Nat)
    (data : Option Int) (hw : WorldInv w) :
    WorldInv (VertexInit w vid data none).1 := by
  rw [VertexInit_none_eq]
  exact WorldInv_VertexInit_some _ _ vid data
    (by simp)
    (WorldInv_newGraph w (GraphInit none) rfl rfl hw)

theorem VertexInit_ok_shape (w : World) (vid : Option Nat) (data : Option Int)
    (gi : Nat) {w1 : World} {vi : Nat}
    (h : VertexInit w vid data (some gi) = (w1, Except.ok vi)) :
    vi = w.vertices.length ∧
    w1.vertices.length = w.vertices.length + 1 := by
  cases vid with
  | none =>
    simp only [VertexInit] at h
    obtain ⟨h1, h2⟩ := Prod.mk.injEq .. ▸ h
    injection h2 with h2
    subst h1 h2
    simp [setGraph]
  | some x =>
    by_cases hx : x ∈ (getGraph w gi).verticesWithID.map Prod.fst
    · simp [VertexInit, hx] at h
    · simp only [VertexInit, if_neg hx] at h
      obtain ⟨h1, h2⟩ := Prod.mk.injEq .. ▸ h
      injection h2 with h2
      subst h1 h2
      simp [setGraph]

theorem WorldInv_LinkToVertex (w : World) (u v : Nat) (wt val : Option Int)
    (hu : u < w.vertices.length) (hv : v < w.vertices.length)
    (hw : WorldInv w) : WorldInv (LinkToVertex w u v wt val).1 := by
  by_cases hg : (getVertex w u).graph = (getVertex w v).graph
  · have hred : LinkToVertex w u v wt val
        = (appendInbound
            (appendOutbound
              { w with edges := w.edges ++ [mkEdge u v wt val none] } u
              w.edges.length)
            v w.edges.length, Except.ok ()) := by
      simp [LinkToVertex, EdgeInit, hg]
    rw [hred]
    have hwe : WorldInv { w with edges := w.edges ++ [mkEdge u v wt val none] } :=
      hw
    have h1 : WorldInv (appendOutbound
        { w with edges := w.edges ++ [mkEdge u v wt val none] } u
        w.edges.length) :=
      WorldInv_setVertex _ u _ hu rfl rfl hwe
    exact WorldInv_setVertex _ v _
      (by simpa [appendOutbound, setVertex] using hv) rfl rfl h1
  · have h : LinkToVertex w u v wt val = (w, Except.error PyError.exception) := by
      simp [LinkToVertex, EdgeInit, hg]
    rw [h]; exact hw

theorem LinkFromVertex_eq (w : World) (a b : Nat) (wt val : Option Int) :
    LinkFromVertex w a b wt val = LinkToVertex w b a wt val := rfl

theorem LinkToNewVertex_world_eq (w : World) (selfV : Nat) (vid : Option Nat)
    (data : Option Int) (wt val : Option Int) :
    (LinkToNewVertex w selfV vid data wt val).1
      = (match VertexInit w vid data (some (getVertex w selfV).graph) with
         | (w1, Except.error _) => w1
         | (w1, Except.ok vi) => (LinkToVertex w1 selfV vi wt val).1) := by
  unfold LinkToNewVertex LinkToVertex
  cases h : VertexInit w vid data (some (getVertex w selfV).graph) with
  | mk w1 r =>
    cases r with
    | error e => rfl
    | ok vi =>
      cases h2 : EdgeInit w1 selfV vi wt val none with
      | mk w2 r2 => cases r2 <;> simp [h2]

theorem LinkFromNewVertex_world_eq (w : World) (selfV : Nat) (vid : Option Nat)
    (data : Option Int) (wt val : Option Int) :
    (LinkFromNewVertex w selfV vid data wt val).1
      = (match VertexInit w vid data (some (getVertex w selfV).graph) with
         | (w1, Except.error _) => w1
         | (w1, Except.ok vi) => (LinkToVertex w1 vi selfV wt val).1) := by
  unfold LinkFromNewVertex LinkToVertex
  cases h : VertexInit w vid data (some (getVertex w selfV).graph) with
  | mk w1 r =>
    cases r with
    | error e => rfl
    | ok vi =>
      cases h2 : EdgeInit w1 vi selfV wt val none with
      | mk w2 r2 => cases r2 <;> simp [h2]

theorem VertexInit_error_world (w : World) (vid : Option Nat)
    (data : Option Int) (gi : Nat) {w1 : World} {e : PyError}
    (h : VertexInit w vid data (some gi) = (w1, Except.error e)) : w1 = w := by
  cases vid with
  | none => simp [VertexInit] at h
  | some x =>
    by_cases hx : x ∈ (getGraph w gi).verticesWithID.map Prod.fst
    · simp [VertexInit, hx] at h
      exact h.1.symm
    · simp [VertexInit, hx] at h

theorem WorldInv_LinkToNewVertex (w : World) (selfV : Nat) (vid : Option Nat)
    (data : Option Int) (wt val : Option Int)
    (hs : selfV < w.vertices.length) (hw : WorldInv w) :
    WorldInv (LinkToNewVertex w selfV vid data wt val).1 := by
  rw [LinkToNewVertex_world_eq]
  have hgi : (getVertex w selfV).graph < w.graphs.length := (hw.1 selfV hs).1
  cases h : VertexInit w vid data (some (getVertex w selfV).graph) with
  | mk w1 r =>
    have hw1 : WorldInv w1 := by
      have := WorldInv_VertexInit_some w (getVertex w selfV).graph vid data hgi hw
      rwa [h] at this
    cases r with
    | error e => exact hw1
    | ok vi =>
      obtain ⟨hvi, hlen⟩ := VertexInit_ok_shape w vid data _ h
      exact WorldInv_LinkToVertex w1 selfV vi wt val (by omega) (by omega) hw1

theorem WorldInv_LinkFromNewVertex (w : World) (selfV : Nat) (vid : Option Nat)
    (data : Option Int) (wt val : Option Int)
    (hs : selfV < w.vertices.length) (hw : WorldInv w) :
    WorldInv (LinkFromNewVertex w selfV vid data wt val).1 := by
  rw [LinkFromNewVertex_world_eq]
  have hgi : (getVertex w selfV).graph < w.graphs.length := (hw.1 selfV hs).1
  cases h : VertexInit w vid data (some (getVertex w selfV).graph) with
  | mk w1 r =>
    have hw1 : WorldInv w1 := by
      have := WorldInv_VertexInit_some w (getVertex w selfV).graph vid data hgi hw
      rwa [h] at this
    cases r with
    | error e => exact hw1
    | ok vi =>
      obtain ⟨hvi, hlen⟩ := VertexInit_ok_shape w vid data _ h
      exact WorldInv_LinkToVertex w1 vi selfV wt val (by omega) (by omega) hw1

theorem WorldInv_applyOp (w : World) (op : GOp) (hw : WorldInv w) :
    WorldInv (applyOp w op) := by
  cases op with
  | newGraph name => exact WorldInv_newGraph w _ rfl rfl hw
  | newVertex vid data g =>
    cases g with
    | some gi =>
      show WorldInv (if gi < w.graphs.length
        then (VertexInit w vid data (some gi)).1 else w)
      by_cases h : gi < w.graphs.length
      · rw [if_pos h]; exact WorldInv_VertexInit_some w gi vid data h hw
      · rw [if_neg h]; exact hw
    | none => exact WorldInv_VertexInit_none w vid data hw
  | link u v wt val =>
    show WorldInv (if u < w.vertices.length ∧ v < w.vertices.length
      then (LinkToVertex w u v wt val).1 else w)
    by_cases h : u < w.vertices.length ∧ v < w.vertices.length
    · rw [if_pos h]; exact WorldInv_LinkToVertex w u v wt val h.1 h.2 hw
    · rw [if_neg h]; exact hw
  | linkFrom u v wt val =>
    show WorldInv (if u < w.vertices.length ∧ v < w.vertices.length
      then (LinkFromVertex w u v wt val).1 else w)
    by_cases h : u < w.vertices.length ∧ v < w.vertices.length
    · rw [if_pos h, LinkFromVertex_eq]
      exact WorldInv_LinkToVertex w v u wt val h.2 h.1 hw
    · rw [if_neg h]; exact hw
  | linkToNew u vid data wt val =>
    show WorldInv (if u < w.vertices.length
      then (LinkToNewVertex w u vid data wt val).1 else w)
    by_cases h : u < w.vertices.length
    · rw [if_pos h]; exact WorldInv_LinkToNewVertex w u vid data wt val h hw
    · rw [if_neg h]; exact hw
  | linkFromNew u vid data wt val =>
    show WorldInv (if u < w.vertices.length
      then (LinkFromNewVertex w u vid data wt val).1 else w)
    by_cases h : u < w.vertices.length
    · rw [if_pos h]; exact WorldInv_LinkFromNewVertex w u vid data wt val h hw
    · rw [if_neg h]; exact hw
  | setName gi s2 =>
    show WorldInv (if gi < w.graphs.length
      then setGraph w gi { getGraph w gi with name := some s2 } else w)
    by_cases h : gi < w.graphs.length
    · rw [if_pos h]; exact WorldInv_setGraph w gi _ h rfl rfl hw
    · rw [if_neg h]; exact hw
  | setVertexValue vi x =>
    show WorldInv (if vi < w.vertices.length
      then setVertex w vi { getVertex w vi with value := x } else w)
    by_cases h : vi < w.vertices.length
    · rw [if_pos h]; exact WorldInv_setVertex w vi _ h rfl rfl hw
    · rw [if_neg h]; exact hw
  | vertexSetItem vi k x =>
    show WorldInv (if vi < w.vertices.length
      then setVertex w vi (Vertex.setItem (getVertex w vi) k x) else w)
    by_cases h : vi < w.vertices.length
    · rw [if_pos h]; exact WorldInv_setVertex w vi _ h rfl rfl hw
    · rw [if_neg h]; exact hw
  | graphSetItem gi k x =>
    show WorldInv (if gi < w.graphs.length
      then setGraph w gi (Graph.setItem (getGraph w gi) k x) else w)
    by_cases h : gi < w.graphs.length
    · rw [if_pos h]; exact WorldInv_setGraph w gi _ h rfl rfl hw
    · rw [if_neg h]; exact hw

theorem WorldInv_empty : WorldInv World.empty :=
  ⟨fun vi h => absurd h (by simp [World.empty, getVertex]),
   fun gi h => absurd h (by simp [World.empty, getGraph])⟩

theorem WorldInv_applyOps (ops : List GOp) : WorldInv (applyOps ops) := by
  suffices h : ∀ w, WorldInv w → WorldInv (ops.foldl applyOp w) from
    h World.empty WorldInv_empty
  induction ops with
  | nil => exact fun w hw => hw
  | cons op rest ih =>
    exact fun w hw => ih (applyOp w op) (WorldInv_applyOp w op hw)

end PyG

namespace PyG

theorem graphLen_counts (w : World) (hw : WorldInv w) (gi : Nat)
    (hgi : gi < w.graphs.length) :
    graphLen (getGraph w gi)
      = ((List.range w.vertices.length).filter
          (fun vi => decide ((getVertex w vi).graph = gi))).length := by
  obtain ⟨ha, hb, hc, hd, he⟩ := hw.2 gi hgi
  have hnodupL : ((getGraph w gi).verticesWithoutID
      ++ (getGraph w gi).verticesWithID.map Prod.snd).Nodup := by
    rw [List.nodup_append]
    refine ⟨hc, he, ?_⟩
    intro a haL haR
    have h1 := (ha a haL).2.2
    obtain ⟨p, hp, hp2⟩ := List.mem_map.mp haR
    have h2 := (hb p hp).2.2
    rw [hp2, h1] at h2
    cases h2
  have hnodupR : ((List.range w.vertices.length).filter
      (fun vi => decide ((getVertex w vi).graph = gi))).Nodup :=
    (List.nodup_range _).filter _
  have hmem : ∀ x, (x ∈ (getGraph w gi).verticesWithoutID
        ++ (getGraph w gi).verticesWithID.map Prod.snd) ↔
      x ∈ (List.range w.vertices.length).filter
          (fun vi => decide ((getVertex w vi).graph = gi)) := by
    intro x
    constructor
    · intro hx
      rcases List.mem_append.mp hx with hx | hx
      · have h := ha x hx
        exact List.mem_filter.mpr ⟨List.mem_range.mpr h.1, by simp [h.2.1]⟩
      · obtain ⟨p, hp, hp2⟩ := List.mem_map.mp hx
        have h := hb p hp
        rw [hp2] at h
        exact List.mem_filter.mpr ⟨List.mem_range.mpr h.1, by simp [h.2.1]⟩
    · intro hx
      obtain ⟨hxr, hxg⟩ := List.mem_filter.mp hx
      have hxlt := List.mem_range.mp hxr
      have hxg' : (getVertex w x).graph = gi := by simpa using hxg
      obtain ⟨h1, h2, h3⟩ := hw.1 x hxlt
      cases hvid : (getVertex w x).vid with
      | none =>
        obtain ⟨hin, hnotin⟩ := h2 hvid
        rw [hxg'] at hin
        exact List.mem_append.mpr (Or.inl hin)
      | some y =>
        obtain ⟨hin, hnotin⟩ := h3 y hvid
        rw [hxg'] at hin
        exact List.mem_append.mpr
          (Or.inr (List.mem_map.mpr ⟨(y, x), hin, rfl⟩))
  have hlen := nodup_length_eq hnodupL hnodupR hmem
  rw [List.length_append, List.length_map] at hlen
  unfold graphLen
  omega

/-- C8: starting from the empty heap, any sequence of API operations
maintains the ownership invariant: every vertex's `Graph` back-reference
denotes an existing graph (the one it was constructed with, explicit or
implicitly created), the vertex is registered exactly once in the one vertex
registry of that graph matching its identity kind and in no other registry,
each graph's registries hold only its own live vertices without duplication,
and `len(graph)` — by definition the anonymous count plus the identity-keyed
count — equals the number of heap vertices whose back-reference is that
graph. -/
theorem C8_vertex_ownership_invariant (ops : List GOp) :
    WorldInv (applyOps ops) ∧
    (∀ g : Graph, graphLen g
        = g.verticesWithoutID.length + g.verticesWithID.length) ∧
    (∀ gi, gi < (applyOps ops).graphs.length →
      graphLen (getGraph (applyOps ops) gi)
        = ((List.range (applyOps ops).vertices.length).filter
            (fun vi => decide ((getVertex (applyOps ops) vi).graph = gi))).length) :=
  ⟨WorldInv_applyOps ops, fun g => rfl,
   fun gi hgi => graphLen_counts (applyOps ops) (WorldInv_applyOps ops) gi hgi⟩

end PyG

namespace PyG

/-! ## Lemmas on the BFS scan and on reachability/distance -/

theorem bfsScan_eq {V : Type} [DecidableEq V] (ds visited queue : List V) :
    bfsScan ds visited queue
      = (visited ++ newElems ds visited, queue ++ newElems ds visited) := by
  induction ds generalizing visited queue with
  | nil => simp [bfsScan, newElems]
  | cons d rest ih =>
    by_cases h : d ∈ visited
    · simp [bfsScan, newElems, h, ih]
    · simp only [bfsScan, newElems, if_neg h, ih]
      simp [List.append_assoc]

theorem newElems_sub {V : Type} [DecidableEq V] {ds visited : List V} {x : V}
    (h : x ∈ newElems ds visited) : x ∈ ds ∧ x ∉ visited := by
  induction ds generalizing visited with
  | nil => simp [newElems] at h
  | cons d rest ih =>
    by_cases hd : d ∈ visited
    · rw [newElems, if_pos hd] at h
      obtain ⟨h1, h2⟩ := ih h
      exact ⟨List.mem_cons.mpr (Or.inr h1), h2⟩
    · rw [newElems, if_neg hd] at h
      rcases List.mem_cons.mp h with h | h
      · subst h
        exact ⟨List.mem_cons.mpr (Or.inl rfl), hd⟩
      · obtain ⟨h1, h2⟩ := ih h
        refine ⟨List.mem_cons.mpr (Or.inr h1), fun hx => h2 ?_⟩
        exact List.mem_append.mpr (Or.inl hx)

theorem newElems_nodup {V : Type} [DecidableEq V] (ds visited : List V) :
    (newElems ds visited).Nodup := by
  induction ds generalizing visited with
  | nil => simp [newElems]
  | cons d rest ih =>
    by_cases hd : d ∈ visited
    · rw [newElems, if_pos hd]
      exact ih visited
    · rw [newElems, if_neg hd]
      refine List.nodup_cons.mpr ⟨fun hmem => ?_, ih (visited ++ [d])⟩
      exact (newElems_sub hmem).2 (List.mem_append.mpr (Or.inr (by simp)))

theorem newElems_complete {V : Type} [DecidableEq V] {ds visited : List V}
    {x : V} (h : x ∈ ds) : x ∈ visited ∨ x ∈ newElems ds visited := by
  induction ds generalizing visited with
  | nil => simp at h
  | cons d rest ih =>
    by_cases hd : d ∈ visited
    · rw [newElems, if_pos hd]
      rcases List.mem_cons.mp h with h | h
      · exact Or.inl (h ▸ hd)
      · exact ih h
    · rw [newElems, if_neg hd]
      rcases List.mem_cons.mp h with h | h
      · exact Or.inr (List.mem_cons.mpr (Or.inl h))
      · rcases (ih h : x ∈ visited ++ [d] ∨ x ∈ newElems rest (visited ++ [d])) with hx | hx
        · rcases List.mem_append.mp hx with hx | hx
          · exact Or.inl hx
          · exact Or.inr (List.mem_cons.mpr (Or.inl (by simpa using hx)))
        · exact Or.inr (List.mem_cons.mpr (Or.inr hx))

theorem setAdd_sub {V : Type} [DecidableEq V] (l : List V) (x : V) :
    ∀ y ∈ l, y ∈ setAdd l x := by
  intro y hy
  unfold setAdd
  split
  · exact hy
  · exact List.mem_append.mpr (Or.inl hy)

theorem setAdd_of_mem {V : Type} [DecidableEq V] {l : List V} {x : V}
    (h : x ∈ l) : setAdd l x = l := by
  unfold setAdd
  exact if_pos h

theorem bfsLoop_cons {V : Type} [DecidableEq V] (out : V → List V)
    (fuel : Nat) (visited : List V) (v : V) (q : List V) :
    bfsLoop out (fuel + 1) visited (v :: q)
      = (bfsLoop out fuel
          (setAdd visited v ++ newElems (out v) (setAdd visited v))
          (q ++ newElems (out v) (setAdd visited v))).map
          (fun ys => v :: ys) := by
  show (bfsLoop out fuel (bfsScan (out v) (setAdd visited v) q).1
      (bfsScan (out v) (setAdd visited v) q).2).map (fun ys => v :: ys) = _
  rw [bfsScan_eq]

theorem Reaches_self {V : Type} (out : V → List V) (s : V) :
    Reaches out s s := ⟨0, rfl⟩

theorem Reaches_step {V : Type} {out : V → List V} {s u v : V}
    (h : Reaches out s u) (hv : v ∈ out u) : Reaches out s v := by
  obtain ⟨n, hn⟩ := h
  exact ⟨n + 1, u, hn, hv⟩

theorem reachN_bfsDist {V : Type} {out : V → List V} {s v : V}
    (h : Reaches out s v) : reachN out (bfsDist out s v) s v :=
  Nat.sInf_mem h

theorem bfsDist_le {V : Type} {out : V → List V} {s v : V} {n : Nat}
    (h : reachN out n s v) : bfsDist out s v ≤ n :=
  Nat.sInf_le h

theorem bfsDist_self {V : Type} (out : V → List V) (s : V) :
    bfsDist out s s = 0 :=
  Nat.le_zero.mp (bfsDist_le (show reachN out 0 s s from rfl))

theorem bfsDist_succ_le {V : Type} {out : V → List V} {s v u : V}
    (h : Reaches out s v) (hu : u ∈ out v) :
    bfsDist out s u ≤ bfsDist out s v + 1 :=
  bfsDist_le ⟨v, reachN_bfsDist h, hu⟩

theorem bfsDist_eq_zero {V : Type} {out : V → List V} {s v : V}
    (h : Reaches out s v) (hz : bfsDist out s v = 0) : v = s := by
  have := reachN_bfsDist h
  rw [hz] at this
  exact this

theorem bfsDist_parent {V : Type} {out : V → List V} {s z : V} {n : Nat}
    (h : Reaches out s z) (hd : bfsDist out s z = n + 1) :
    ∃ p, Reaches out s p ∧ bfsDist out s p = n ∧ z ∈ out p := by
  have hr := reachN_bfsDist h
  rw [hd] at hr
  obtain ⟨u, hu, hz⟩ := hr
  have hru : Reaches out s u := ⟨n, hu⟩
  have h1 : bfsDist out s u ≤ n := bfsDist_le hu
  have h2 : bfsDist out s z ≤ bfsDist out s u + 1 := bfsDist_succ_le hru hz
  rw [hd] at h2
  exact ⟨u, hru, by omega, hz⟩

end PyG

namespace PyG

/-! ## Invariant lemmas for the BFS loop -/

theorem bfsLoop_queue_sub {V : Type} [DecidableEq V] (out : V → List V) :
    ∀ (fuel : Nat) (visited queue : List V) {ys : List V},
      bfsLoop out fuel visited queue = some ys → ∀ x ∈ queue, x ∈ ys := by
  intro fuel
  induction fuel with
  | zero =>
    intro visited queue ys h x hx
    cases queue with
    | nil => simp at hx
    | cons v q => simp [bfsLoop] at h
  | succ fuel ih =>
    intro visited queue ys h x hx
    cases queue with
    | nil => simp at hx
    | cons v q =>
      rw [bfsLoop_cons] at h
      cases hin : bfsLoop out fuel
          (setAdd visited v ++ newElems (out v) (setAdd visited v))
          (q ++ newElems (out v) (setAdd visited v)) with
      | none => rw [hin] at h; cases h
      | some ys' =>
        rw [hin] at h
        simp only [Option.map_some'] at h
        injection h with h
        rcases List.mem_cons.mp hx with hx | hx
        · subst hx
          rw [← h]
          exact List.mem_cons.mpr (Or.inl rfl)
        · rw [← h]
          exact List.mem_cons.mpr
            (Or.inr (ih _ _ hin x (List.mem_append.mpr (Or.inl hx))))

theorem bfsLoop_mem_src {V : Type} [DecidableEq V] (out : V → List V) :
    ∀ (fuel : Nat) (visited queue : List V) {ys : List V},
      bfsLoop out fuel visited queue = some ys →
      ∀ y ∈ ys, y ∈ queue ∨ y ∉ visited := by
  intro fuel
  induction fuel with
  | zero =>
    intro visited queue ys h y hy
    cases queue with
    | nil =>
      injection h with h
      rw [← h] at hy
      simp at hy
    | cons v q => simp [bfsLoop] at h
  | succ fuel ih =>
    intro visited queue ys h y hy
    cases queue with
    | nil =>
      injection h with h
      rw [← h] at hy
      simp at hy
    | cons v q =>
      rw [bfsLoop_cons] at h
      cases hin : bfsLoop out fuel
          (setAdd visited v ++ newElems (out v) (setAdd visited v))
          (q ++ newElems (out v) (setAdd visited v)) with
      | none => rw [hin] at h; cases h
      | some ys' =>
        rw [hin] at h
        simp only [Option.map_some'] at h
        injection h with h
        rw [← h] at hy
        rcases List.mem_cons.mp hy with hy | hy
        · subst hy
          exact Or.inl (List.mem_cons.mpr (Or.inl rfl))
        · rcases ih _ _ hin y hy with hq | hnv
          · rcases List.mem_append.mp hq with hq | hq
            · exact Or.inl (List.mem_cons.mpr (Or.inr hq))
            · refine Or.inr (fun hyv => ?_)
              exact (newElems_sub hq).2 (setAdd_sub _ _ _ hyv)
          · refine Or.inr (fun hyv => ?_)
            exact hnv (List.mem_append.mpr (Or.inl (setAdd_sub _ _ _ hyv)))

theorem bfsLoop_nodup {V : Type} [DecidableEq V] (out : V → List V) :
    ∀ (fuel : Nat) (visited queue : List V) {ys : List V},
      bfsLoop out fuel visited queue = some ys →
      queue.Nodup → (∀ x ∈ queue, x ∈ visited) → ys.Nodup := by
  intro fuel
  induction fuel with
  | zero =>
    intro visited queue ys h hnd hqv
    cases queue with
    | nil =>
      injection h with h
      rw [← h]
      exact List.nodup_nil
    | cons v q => simp [bfsLoop] at h
  | succ fuel ih =>
    intro visited queue ys h hnd hqv
    cases queue with
    | nil =>
      injection h with h
      rw [← h]
      exact List.nodup_nil
    | cons v q =>
      have hv : v ∈ visited := hqv v (List.mem_cons.mpr (Or.inl rfl))
      rw [bfsLoop_cons, setAdd_of_mem hv] at h
      cases hin : bfsLoop out fuel
          (visited ++ newElems (out v) visited)
          (q ++ newElems (out v) visited) with
      | none => rw [hin] at h; cases h
      | some ys' =>
        rw [hin] at h
        simp only [Option.map_some'] at h
        injection h with h
        rw [← h]
        obtain ⟨hvq, hndq⟩ := List.nodup_cons.mp hnd
        refine List.nodup_cons.mpr ⟨fun hvy => ?_, ?_⟩
        · rcases bfsLoop_mem_src out fuel _ _ hin v hvy with hq | hnv
          · rcases List.mem_append.mp hq with hq | hq
            · exact hvq hq
            · exact (newElems_sub hq).2 hv
          · exact hnv (List.mem_append.mpr (Or.inl hv))
        · refine ih _ _ hin ?_ ?_
          · rw [List.nodup_append]
            refine ⟨hndq, newElems_nodup _ _, fun a haq han => ?_⟩
            exact (newElems_sub han).2
              (hqv a (List.mem_cons.mpr (Or.inr haq)))
          · intro x hx
            rcases List.mem_append.mp hx with hx | hx
            · exact List.mem_append.mpr
                (Or.inl (hqv x (List.mem_cons.mpr (Or.inr hx))))
            · exact List.mem_append.mpr (Or.inr hx)

theorem bfsLoop_reachable {V : Type} [DecidableEq V] (out : V → List V)
    (s : V) :
    ∀ (fuel : Nat) (visited queue : List V) {ys : List V},
      bfsLoop out fuel visited queue = some ys →
      (∀ x ∈ queue, Reaches out s x) → ∀ y ∈ ys, Reaches out s y := by
  intro fuel
  induction fuel with
  | zero =>
    intro visited queue ys h hq y hy
    cases queue with
    | nil =>
      injection h with h
      rw [← h] at hy
      simp at hy
    | cons v q => simp [bfsLoop] at h
  | succ fuel ih =>
    intro visited queue ys h hq y hy
    cases queue with
    | nil =>
      injection h with h
      rw [← h] at hy
      simp at hy
    | cons v q =>
      have hrv : Reaches out s v := hq v (List.mem_cons.mpr (Or.inl rfl))
      rw [bfsLoop_cons] at h
      cases hin : bfsLoop out fuel
          (setAdd visited v ++ newElems (out v) (setAdd visited v))
          (q ++ newElems (out v) (setAdd visited v)) with
      | none => rw [hin] at h; cases h
      | some ys' =>
        rw [hin] at h
        simp only [Option.map_some'] at h
        injection h with h
        rw [← h] at hy
        rcases List.mem_cons.mp hy with hy | hy
        · exact hy ▸ hrv
        · refine ih _ _ hin ?_ y hy
          intro x hx
          rcases List.mem_append.mp hx with hx | hx
          · exact hq x (List.mem_cons.mpr (Or.inr hx))
          · exact Reaches_step hrv (newElems_sub hx).1

theorem bfsLoop_closure {V : Type} [DecidableEq V] (out : V → List V) :
    ∀ (fuel : Nat) (visited queue : List V) {ys : List V},
      bfsLoop out fuel visited queue = some ys →
      (∀ x ∈ visited, x ∉ queue → ∀ u ∈ out x, u ∈ visited) →
      (∀ x ∈ queue, x ∈ visited) →
      ∀ x, (x ∈ visited ∨ x ∈ ys) → ∀ u ∈ out x,
        (u ∈ visited ∨ u ∈ ys) := by
  intro fuel
  induction fuel with
  | zero =>
    intro visited queue ys h hcl hqv x hx u hu
    cases queue with
    | nil =>
      injection h with h
      subst h
      rcases hx with hx | hx
      · exact Or.inl (hcl x hx (by simp) u hu)
      · simp at hx
    | cons v q => simp [bfsLoop] at h
  | succ fuel ih =>
    intro visited queue ys h hcl hqv x hx u hu
    cases queue with
    | nil =>
      injection h with h
      subst h
      rcases hx with hx | hx
      · exact Or.inl (hcl x hx (by simp) u hu)
      · simp at hx
    | cons v q =>
      have hv : v ∈ visited := hqv v (List.mem_cons.mpr (Or.inl rfl))
      rw [bfsLoop_cons, setAdd_of_mem hv] at h
      cases hin : bfsLoop out fuel
          (visited ++ newElems (out v) visited)
          (q ++ newElems (out v) visited) with
      | none => rw [hin] at h; cases h
      | some ys' =>
        rw [hin] at h
        simp only [Option.map_some'] at h
        injection h with h
        have hnewsub : ∀ z ∈ newElems (out v) visited, z ∈ ys' :=
          fun z hz => bfsLoop_queue_sub out fuel _ _ hin z
            (List.mem_append.mpr (Or.inr hz))
        have hcl' : ∀ z ∈ visited ++ newElems (out v) visited,
            z ∉ q ++ newElems (out v) visited → ∀ u' ∈ out z,
            u' ∈ visited ++ newElems (out v) visited := by
          intro z hz hznq u' hu'
          rcases List.mem_append.mp hz with hz | hz
          · by_cases hzv : z = v
            · subst hzv
              have hcomp : u' ∈ visited ∨ u' ∈ newElems (out z) visited :=
                newElems_complete hu'
              rcases hcomp with h' | h'
              · exact List.mem_append.mpr (Or.inl h')
              · exact List.mem_append.mpr (Or.inr h')
            · have hznq' : z ∉ v :: q := by
                intro hzm
                rcases List.mem_cons.mp hzm with hzm | hzm
                · exact hzv hzm
                · exact hznq (List.mem_append.mpr (Or.inl hzm))
              exact List.mem_append.mpr (Or.inl (hcl z hz hznq' u' hu'))
          · exact absurd (List.mem_append.mpr (Or.inr hz)) hznq
        have hqv' : ∀ z ∈ q ++ newElems (out v) visited,
            z ∈ visited ++ newElems (out v) visited := by
          intro z hz
          rcases List.mem_append.mp hz with hz | hz
          · exact List.mem_append.mpr
              (Or.inl (hqv z (List.mem_cons.mpr (Or.inr hz))))
          · exact List.mem_append.mpr (Or.inr hz)
        have hih := ih _ _ hin hcl' hqv'
        rw [← h]
        have hxin : x ∈ visited ++ newElems (out v) visited ∨ x ∈ ys' := by
          rcases hx with hx | hx
          · exact Or.inl (List.mem_append.mpr (Or.inl hx))
          · rw [← h] at hx
            rcases List.mem_cons.mp hx with hx | hx
            · exact Or.inl (List.mem_append.mpr (Or.inl (hx ▸ hv)))
            · exact Or.inr hx
        rcases hih x hxin u hu with h' | h'
        · rcases List.mem_append.mp h' with h' | h'
          · exact Or.inl h'
          · exact Or.inr (List.mem_cons.mpr (Or.inr (hnewsub u h')))
        · exact Or.inr (List.mem_cons.mpr (Or.inr h'))

theorem bfsLoop_terminates {V : Type} [DecidableEq V] (out : V → List V)
    (univ : List V) (hU : univ.Nodup)
    (hclosed : ∀ v ∈ univ, ∀ u ∈ out v, u ∈ univ) :
    ∀ (fuel : Nat) (visited queue : List V),
      (∀ x ∈ queue, x ∈ visited) → visited.Nodup →
      (∀ x ∈ visited, x ∈ univ) →
      (univ.length - visited.length) + queue.length ≤ fuel →
      ∃ ys, bfsLoop out fuel visited queue = some ys := by
  intro fuel
  induction fuel with
  | zero =>
    intro visited queue hqv hnd hvu hf
    cases queue with
    | nil => exact ⟨[], rfl⟩
    | cons v q => simp at hf
  | succ fuel ih =>
    intro visited queue hqv hnd hvu hf
    cases queue with
    | nil => exact ⟨[], rfl⟩
    | cons v q =>
      have hv : v ∈ visited := hqv v (List.mem_cons.mpr (Or.inl rfl))
      have hnewv : ∀ z ∈ newElems (out v) visited, z ∈ univ :=
        fun z hz => hclosed v (hvu v hv) z (newElems_sub hz).1
      have hnd' : (visited ++ newElems (out v) visited).Nodup := by
        rw [List.nodup_append]
        exact ⟨hnd, newElems_nodup _ _,
          fun a ha han => (newElems_sub han).2 ha⟩
      have hvu' : ∀ x ∈ visited ++ newElems (out v) visited, x ∈ univ := by
        intro x hx
        rcases List.mem_append.mp hx with hx | hx
        · exact hvu x hx
        · exact hnewv x hx
      have hle : (visited ++ newElems (out v) visited).length ≤ univ.length :=
        nodup_length_le hnd' hvu'
      have hf' : (univ.length
            - (visited ++ newElems (out v) visited).length)
          + (q ++ newElems (out v) visited).length ≤ fuel := by
        simp only [List.length_append, List.length_cons] at hf hle ⊢
        omega
      obtain ⟨ys', hys'⟩ := ih (visited ++ newElems (out v) visited)
        (q ++ newElems (out v) visited)
        (by
          intro x hx
          rcases List.mem_append.mp hx with hx | hx
          · exact List.mem_append.mpr
              (Or.inl (hqv x (List.mem_cons.mpr (Or.inr hx))))
          · exact List.mem_append.mpr (Or.inr hx))
        hnd' hvu' hf'
      refine ⟨v :: ys', ?_⟩
      rw [bfsLoop_cons, setAdd_of_mem hv, hys']
      rfl

end PyG

namespace PyG

/-! ## Level ordering of the BFS output -/

theorem bfs_head_level_visited {V : Type} [DecidableEq V]
    (out : V → List V) (s : V) (visited : List V) (v : V) (q : List V)
    (hS : s ∈ visited)
    (hD1 : (v :: q).Pairwise (fun a b => bfsDist out s a ≤ bfsDist out s b))
    (hD3 : ∀ z, Reaches out s z → ∀ x ∈ (v :: q),
      bfsDist out s z < bfsDist out s x → z ∈ visited)
    (hD4 : ∀ x ∈ visited, x ∉ (v :: q) → ∀ u ∈ out x, u ∈ visited) :
    ∀ z, Reaches out s z → bfsDist out s z ≤ bfsDist out s v →
      z ∈ visited := by
  intro z hz hle
  cases hcase : bfsDist out s z with
  | zero =>
    rw [bfsDist_eq_zero hz hcase]
    exact hS
  | succ m =>
    obtain ⟨p, hp, hpd, hzp⟩ := bfsDist_parent hz hcase
    have hplt : bfsDist out s p < bfsDist out s v := by omega
    have hpv : p ∈ visited :=
      hD3 p hp v (List.mem_cons.mpr (Or.inl rfl)) hplt
    have hpnq : p ∉ v :: q := by
      intro hpm
      have hvle : bfsDist out s v ≤ bfsDist out s p := by
        rcases List.mem_cons.mp hpm with hpm | hpm
        · rw [hpm]
        · exact (List.pairwise_cons.mp hD1).1 p hpm
      omega
    exact hD4 p hpv hpnq z hzp

theorem bfs_new_dist {V : Type} [DecidableEq V]
    (out : V → List V) (s : V) (visited : List V) (v : V) (q : List V)
    (hS : s ∈ visited)
    (hvr : ∀ x ∈ visited, Reaches out s x)
    (hv : v ∈ visited)
    (hD1 : (v :: q).Pairwise (fun a b => bfsDist out s a ≤ bfsDist out s b))
    (hD3 : ∀ z, Reaches out s z → ∀ x ∈ (v :: q),
      bfsDist out s z < bfsDist out s x → z ∈ visited)
    (hD4 : ∀ x ∈ visited, x ∉ (v :: q) → ∀ u ∈ out x, u ∈ visited) :
    ∀ n ∈ newElems (out v) visited,
      bfsDist out s n = bfsDist out s v + 1 := by
  intro n hn
  obtain ⟨hno, hnv⟩ := newElems_sub hn
  have hrv : Reaches out s v := hvr v hv
  have hrn : Reaches out s n := Reaches_step hrv hno
  have hle : bfsDist out s n ≤ bfsDist out s v + 1 := bfsDist_succ_le hrv hno
  by_contra hne
  have hle' : bfsDist out s n ≤ bfsDist out s v := by omega
  exact hnv (bfs_head_level_visited out s visited v q hS hD1 hD3 hD4 n hrn hle')

theorem bfsLoop_sorted {V : Type} [DecidableEq V] (out : V → List V)
    (s : V) :
    ∀ (fuel : Nat) (visited queue : List V) {ys : List V},
      bfsLoop out fuel visited queue = some ys →
      s ∈ visited →
      (∀ x ∈ visited, Reaches out s x) →
      (∀ x ∈ queue, x ∈ visited) →
      queue.Pairwise (fun a b => bfsDist out s a ≤ bfsDist out s b) →
      (∀ a ∈ queue, ∀ b ∈ queue, bfsDist out s b ≤ bfsDist out s a + 1) →
      (∀ z, Reaches out s z → ∀ x ∈ queue,
        bfsDist out s z < bfsDist out s x → z ∈ visited) →
      (∀ x ∈ visited, x ∉ queue → ∀ u ∈ out x, u ∈ visited) →
      ys.Pairwise (fun a b => bfsDist out s a ≤ bfsDist out s b) ∧
      (∀ y ∈ ys, ∃ x, x ∈ queue ∧ bfsDist out s x ≤ bfsDist out s y) := by
  intro fuel
  induction fuel with
  | zero =>
    intro visited queue ys h hS hvr hqv hD1 hD2 hD3 hD4
    cases queue with
    | nil =>
      injection h with h
      rw [← h]
      exact ⟨List.Pairwise.nil, by simp⟩
    | cons v q => simp [bfsLoop] at h
  | succ fuel ih =>
    intro visited queue ys h hS hvr hqv hD1 hD2 hD3 hD4
    cases queue with
    | nil =>
      injection h with h
      rw [← h]
      exact ⟨List.Pairwise.nil, by simp⟩
    | cons v q =>
      have hv : v ∈ visited := hqv v (List.mem_cons.mpr (Or.inl rfl))
      rw [bfsLoop_cons, setAdd_of_mem hv] at h
      cases hin : bfsLoop out fuel
          (visited ++ newElems (out v) visited)
          (q ++ newElems (out v) visited) with
      | none => rw [hin] at h; cases h
      | some ys' =>
        rw [hin] at h
        simp only [Option.map_some'] at h
        injection h with h
        have hnewd : ∀ n ∈ newElems (out v) visited,
            bfsDist out s n = bfsDist out s v + 1 :=
          bfs_new_dist out s visited v q hS hvr hv hD1 hD3 hD4
        have hheadle : ∀ x ∈ v :: q, bfsDist out s v ≤ bfsDist out s x := by
          intro x hx
          rcases List.mem_cons.mp hx with hx | hx
          · rw [hx]
          · exact (List.pairwise_cons.mp hD1).1 x hx
        have hS' : s ∈ visited ++ newElems (out v) visited :=
          List.mem_append.mpr (Or.inl hS)
        have hvr' : ∀ x ∈ visited ++ newElems (out v) visited,
            Reaches out s x := by
          intro x hx
          rcases List.mem_append.mp hx with hx | hx
          · exact hvr x hx
          · exact Reaches_step (hvr v hv) (newElems_sub hx).1
        have hqv' : ∀ x ∈ q ++ newElems (out v) visited,
            x ∈ visited ++ newElems (out v) visited := by
          intro x hx
          rcases List.mem_append.mp hx with hx | hx
          · exact List.mem_append.mpr
              (Or.inl (hqv x (List.mem_cons.mpr (Or.inr hx))))
          · exact List.mem_append.mpr (Or.inr hx)
        have hqle : ∀ a ∈ q ++ newElems (out v) visited,
            bfsDist out s v ≤ bfsDist out s a := by
          intro a ha
          rcases List.mem_append.mp ha with ha | ha
          · exact hheadle a (List.mem_cons.mpr (Or.inr ha))
          · have := hnewd a ha
            omega
        have hqub : ∀ b ∈ q ++ newElems (out v) visited,
            bfsDist out s b ≤ bfsDist out s v + 1 := by
          intro b hb
          rcases List.mem_append.mp hb with hb | hb
          · exact hD2 v (List.mem_cons.mpr (Or.inl rfl)) b
              (List.mem_cons.mpr (Or.inr hb))
          · exact (hnewd b hb).le
        have hD1' : (q ++ newElems (out v) visited).Pairwise
            (fun a b => bfsDist out s a ≤ bfsDist out s b) := by
          rw [List.pairwise_append]
          refine ⟨(List.pairwise_cons.mp hD1).2, ?_, ?_⟩
          · refine List.pairwise_of_forall_mem_list ?_
            intro a ha b hb
            rw [hnewd a ha, hnewd b hb]
          · intro a ha b hb
            have h1 := hD2 v (List.mem_cons.mpr (Or.inl rfl)) a
              (List.mem_cons.mpr (Or.inr ha))
            have h2 := hnewd b hb
            omega
        have hD2' : ∀ a ∈ q ++ newElems (out v) visited,
            ∀ b ∈ q ++ newElems (out v) visited,
            bfsDist out s b ≤ bfsDist out s a + 1 := by
          intro a ha b hb
          have h1 := hqle a ha
          have h2 := hqub b hb
          omega
        have hD3' : ∀ z, Reaches out s z →
            ∀ x ∈ q ++ newElems (out v) visited,
            bfsDist out s z < bfsDist out s x →
            z ∈ visited ++ newElems (out v) visited := by
          intro z hz x hx hlt
          have hub := hqub x hx
          have hzle : bfsDist out s z ≤ bfsDist out s v := by omega
          exact List.mem_append.mpr (Or.inl
            (bfs_head_level_visited out s visited v q hS hD1 hD3 hD4 z hz hzle))
        have hD4' : ∀ x ∈ visited ++ newElems (out v) visited,
            x ∉ q ++ newElems (out v) visited →
            ∀ u ∈ out x, u ∈ visited ++ newElems (out v) visited := by
          intro x hx hxnq u hu
          rcases List.mem_append.mp hx with hx | hx
          · by_cases hxv : x = v
            · subst hxv
              have hcomp : u ∈ visited ∨ u ∈ newElems (out x) visited :=
                newElems_complete hu
              rcases hcomp with h' | h'
              · exact List.mem_append.mpr (Or.inl h')
              · exact List.mem_append.mpr (Or.inr h')
            · have hxq : x ∉ v :: q := by
                intro hm
                rcases List.mem_cons.mp hm with hm | hm
                · exact hxv hm
                · exact hxnq (List.mem_append.mpr (Or.inl hm))
              exact List.mem_append.mpr (Or.inl (hD4 x hx hxq u hu))
          · exact absurd (List.mem_append.mpr (Or.inr hx)) hxnq
        obtain ⟨hP, hE⟩ := ih _ _ hin hS' hvr' hqv' hD1' hD2' hD3' hD4'
        constructor
        · rw [← h]
          refine List.pairwise_cons.mpr ⟨?_, hP⟩
          intro y hy
          obtain ⟨x, hxq, hxle⟩ := hE y hy
          have := hqle x hxq
          omega
        · intro y hy
          rw [← h] at hy
          rcases List.mem_cons.mp hy with hy | hy
          · exact ⟨v, List.mem_cons.mpr (Or.inl rfl), hy ▸ Nat.le_refl _⟩
          · obtain ⟨x, hxq, hxle⟩ := hE y hy
            have := hqle x hxq
            exact ⟨v, List.mem_cons.mpr (Or.inl rfl), by omega⟩

end PyG

namespace PyG

theorem pairwise_indexOf_lt {α : Type} [DecidableEq α] {l : List α}
    {f : α → Nat} (hp : l.Pairwise (fun a b => f a ≤ f b)) {u v : α}
    (hu : u ∈ l) (hv : v ∈ l) (hf : f u < f v) :
    l.indexOf u < l.indexOf v := by
  by_contra hc
  push_neg at hc
  have hiu := List.indexOf_lt_length.mpr hu
  have hiv := List.indexOf_lt_length.mpr hv
  rcases Nat.lt_or_ge (l.indexOf v) (l.indexOf u) with hlt | hge
  · have hpp := List.pairwise_iff_get.mp hp ⟨l.indexOf v, hiv⟩
      ⟨l.indexOf u, hiu⟩ hlt
    rw [List.indexOf_get, List.indexOf_get] at hpp
    omega
  · have heq : l.indexOf u = l.indexOf v := by omega
    have huv : u = v := by
      have h1 := List.indexOf_get (l := l) (a := u) hiu
      have h2 := List.indexOf_get (l := l) (a := v) hiv
      calc u = l.get ⟨l.indexOf u, hiu⟩ := h1.symm
        _ = l.get ⟨l.indexOf v, hiv⟩ := by
              congr 1
              exact Fin.ext heq
        _ = v := h2
    rw [huv] at hf
    exact Nat.lt_irrefl _ hf

/-- C4: from any start vertex `s` of a finite out-closed vertex universe,
`IterateVertexesBFS` terminates (with fuel at least the universe size) and
yields `s` first, yields exactly the vertices reachable from `s` with no
repetition, yields any vertex of smaller BFS distance before any vertex of
larger BFS distance, and its successor scan marks vertices visited at enqueue
time: a scan enqueues a duplicate-free batch of previously unvisited vertices
only, so no vertex is ever enqueued twice. -/
theorem C4_IterateVertexesBFS_correct {V : Type} [DecidableEq V]
    (out : V → List V) (univ : List V) (s : V) (fuel : Nat)
    (hU : univ.Nodup) (hs : s ∈ univ)
    (hclosed : ∀ v ∈ univ, ∀ u ∈ out v, u ∈ univ)
    (hfuel : univ.length ≤ fuel) :
    ∃ l, IterateVertexesBFS out fuel s = some l ∧
      l.head? = some s ∧
      (∀ v, v ∈ l ↔ Reaches out s v) ∧
      l.Nodup ∧
      (∀ u v, u ∈ l → v ∈ l → bfsDist out s u < bfsDist out s v →
        l.indexOf u < l.indexOf v) ∧
      (∀ ds visited : List V, (newElems ds visited).Nodup ∧
        ∀ x ∈ newElems ds visited, x ∉ visited) ∧
      (∀ ds visited queue : List V,
        bfsScan ds visited queue
          = (visited ++ newElems ds visited,
             queue ++ newElems ds visited)) := by
  have hscan : bfsScan (out s) [s] ([] : List V)
      = (s :: newElems (out s) [s], newElems (out s) [s]) := by
    rw [bfsScan_eq]
    exact rfl
  have hn0sub : ∀ x ∈ newElems (out s) [s], x ∈ out s ∧ x ≠ s := by
    intro x hx
    exact ⟨(newElems_sub hx).1,
      fun he => (newElems_sub hx).2 (by rw [he]; simp)⟩
  have hn0nodup := newElems_nodup (out s) [s]
  have hv0nodup : (s :: newElems (out s) [s]).Nodup :=
    List.nodup_cons.mpr ⟨fun hm => (hn0sub _ hm).2 rfl, hn0nodup⟩
  have hv0univ : ∀ x ∈ s :: newElems (out s) [s], x ∈ univ := by
    intro x hx
    rcases List.mem_cons.mp hx with h | h
    · exact h ▸ hs
    · exact hclosed s hs x (hn0sub x h).1
  have hq0v0 : ∀ x ∈ newElems (out s) [s], x ∈ s :: newElems (out s) [s] :=
    fun x hx => List.mem_cons.mpr (Or.inr hx)
  have hreach0 : ∀ x ∈ s :: newElems (out s) [s], Reaches out s x := by
    intro x hx
    rcases List.mem_cons.mp hx with h | h
    · exact h ▸ Reaches_self out s
    · exact Reaches_step (Reaches_self out s) (hn0sub x h).1
  have hd1 : ∀ n ∈ newElems (out s) [s], bfsDist out s n = 1 := by
    intro n hn
    obtain ⟨hno, hne⟩ := hn0sub n hn
    have hr : Reaches out s n := Reaches_step (Reaches_self out s) hno
    have hle : bfsDist out s n ≤ 1 := by
      have := bfsDist_succ_le (Reaches_self out s) hno
      rw [bfsDist_self] at this
      omega
    cases hc : bfsDist out s n with
    | zero => exact absurd (bfsDist_eq_zero hr hc) hne
    | succ m => omega
  have hlen0 : (s :: newElems (out s) [s]).length ≤ univ.length :=
    nodup_length_le hv0nodup hv0univ
  have hfuel0 : (univ.length - (s :: newElems (out s) [s]).length)
      + (newElems (out s) [s]).length ≤ fuel := by
    simp only [List.length_cons] at hlen0 ⊢
    omega
  obtain ⟨ys, hrun⟩ := bfsLoop_terminates out univ hU hclosed fuel
    (s :: newElems (out s) [s]) (newElems (out s) [s])
    hq0v0 hv0nodup hv0univ hfuel0
  have hD1i : (newElems (out s) [s]).Pairwise
      (fun a b => bfsDist out s a ≤ bfsDist out s b) := by
    refine List.pairwise_of_forall_mem_list ?_
    intro a ha b hb
    rw [hd1 a ha, hd1 b hb]
  have hD2i : ∀ a ∈ newElems (out s) [s], ∀ b ∈ newElems (out s) [s],
      bfsDist out s b ≤ bfsDist out s a + 1 := by
    intro a ha b hb
    rw [hd1 a ha, hd1 b hb]
    omega
  have hD3i : ∀ z, Reaches out s z → ∀ x ∈ newElems (out s) [s],
      bfsDist out s z < bfsDist out s x →
      z ∈ s :: newElems (out s) [s] := by
    intro z hz x hx hlt
    rw [hd1 x hx] at hlt
    have hz0 : bfsDist out s z = 0 := by omega
    exact List.mem_cons.mpr (Or.inl (bfsDist_eq_zero hz hz0))
  have hD4i : ∀ x ∈ s :: newElems (out s) [s],
      x ∉ newElems (out s) [s] → ∀ u ∈ out x,
      u ∈ s :: newElems (out s) [s] := by
    intro x hx hxn u hu
    have hxs : x = s := by
      rcases List.mem_cons.mp hx with h | h
      · exact h
      · exact absurd h hxn
    rw [hxs] at hu
    have hcomp : u ∈ [s] ∨ u ∈ newElems (out s) [s] := newElems_complete hu
    rcases hcomp with h' | h'
    · exact List.mem_cons.mpr (Or.inl (by simpa using h'))
    · exact List.mem_cons.mpr (Or.inr h')
  obtain ⟨hsorted, hexist⟩ := bfsLoop_sorted out s fuel
    (s :: newElems (out s) [s]) (newElems (out s) [s]) hrun
    (List.mem_cons.mpr (Or.inl rfl)) hreach0 hq0v0 hD1i hD2i hD3i hD4i
  refine ⟨s :: ys, ?_, rfl, ?_, ?_, ?_, ?_, ?_⟩
  · show (bfsLoop out fuel (bfsScan (out s) [s] []).1
        (bfsScan (out s) [s] []).2).map (fun t => s :: t) = some (s :: ys)
    rw [hscan]
    show (bfsLoop out fuel (s :: newElems (out s) [s])
        (newElems (out s) [s])).map (fun t => s :: t) = some (s :: ys)
    rw [hrun]
    rfl
  · intro v
    constructor
    · intro hv
      rcases List.mem_cons.mp hv with h | h
      · exact h ▸ Reaches_self out s
      · exact bfsLoop_reachable out s fuel _ _ hrun
          (fun x hx => hreach0 x (hq0v0 x hx)) v h
    · intro hv
      have hW := bfsLoop_closure out fuel (s :: newElems (out s) [s])
        (newElems (out s) [s]) hrun hD4i hq0v0
      obtain ⟨n, hn⟩ := hv
      have hWmem : ∀ m z, reachN out m s z →
          (z ∈ s :: newElems (out s) [s] ∨ z ∈ ys) := by
        intro m
        induction m with
        | zero =>
          intro z hz
          exact Or.inl (List.mem_cons.mpr (Or.inl hz))
        | succ m ihm =>
          intro z hz
          obtain ⟨u, hu, hzu⟩ := hz
          exact hW u (ihm u hu) z hzu
      rcases hWmem n v hn with h | h
      · rcases List.mem_cons.mp h with h | h
        · exact List.mem_cons.mpr (Or.inl h)
        · exact List.mem_cons.mpr
            (Or.inr (bfsLoop_queue_sub out fuel _ _ hrun v h))
      · exact List.mem_cons.mpr (Or.inr h)
  · have hysnd : ys.Nodup := bfsLoop_nodup out fuel _ _ hrun hn0nodup hq0v0
    refine List.nodup_cons.mpr ⟨?_, hysnd⟩
    intro hsy
    rcases bfsLoop_mem_src out fuel _ _ hrun s hsy with h | h
    · exact (hn0sub s h).2 rfl
    · exact h (List.mem_cons.mpr (Or.inl rfl))
  · have hpair : (s :: ys).Pairwise
        (fun a b => bfsDist out s a ≤ bfsDist out s b) := by
      refine List.pairwise_cons.mpr ⟨?_, hsorted⟩
      intro y hy
      rw [bfsDist_self]
      exact Nat.zero_le _
    intro u v hu hv hlt
    exact pairwise_indexOf_lt hpair hu hv hlt
  · exact fun ds visited =>
      ⟨newElems_nodup ds visited, fun x hx => (newElems_sub hx).2⟩
  · exact fun ds visited queue => bfsScan_eq ds visited queue

/-- Witness for C4 on the concrete path graph `0 → 1`. -/
theorem C4_IterateVertexesBFS_correct_witness :
    (([0, 1] : List Nat).Nodup ∧ (0 : Nat) ∈ ([0, 1] : List Nat) ∧
     (∀ v ∈ ([0, 1] : List Nat), ∀ u ∈ outPath2 v, u ∈ ([0, 1] : List Nat)) ∧
     ([0, 1] : List Nat).length ≤ 2) ∧
    (∃ l, IterateVertexesBFS outPath2 2 0 = some l ∧
      l.head? = some 0 ∧
      (∀ v, v ∈ l ↔ Reaches outPath2 0 v) ∧
      l.Nodup ∧
      (∀ u v, u ∈ l → v ∈ l → bfsDist outPath2 0 u < bfsDist outPath2 0 v →
        l.indexOf u < l.indexOf v) ∧
      (∀ ds visited : List Nat, (newElems ds visited).Nodup ∧
        ∀ x ∈ newElems ds visited, x ∉ visited) ∧
      (∀ ds visited queue : List Nat,
        bfsScan ds visited queue
          = (visited ++ newElems ds visited,
             queue ++ newElems ds visited))) :=
  ⟨⟨by decide, by decide, by decide, by decide⟩,
   C4_IterateVertexesBFS_correct outPath2 [0, 1] 0 2 (by decide) (by decide)
     (by decide) (by decide)⟩

end PyG

namespace PyG

/-! ## Step equations for the DFS machine and the DFS recursion -/

theorem dfsLoop_nil_stack {V : Type} [DecidableEq V] (out : V → List V)
    (fuel : Nat) (visited : List V) :
    dfsLoop out fuel visited [] = some ([], visited) := by
  cases fuel <;> rfl

theorem dfsLoop_nil_frame {V : Type} [DecidableEq V] (out : V → List V)
    (fuel : Nat) (visited : List V) (rest : List (List V)) :
    dfsLoop out (fuel + 1) visited ([] :: rest)
      = dfsLoop out fuel visited rest := rfl

theorem dfsLoop_visited {V : Type} [DecidableEq V] (out : V → List V)
    (fuel : Nat) (visited : List V) {d : V} (ds : List V)
    (rest : List (List V)) (hd : d ∈ visited) :
    dfsLoop out (fuel + 1) visited ((d :: ds) :: rest)
      = dfsLoop out fuel visited (ds :: rest) := by
  simp [dfsLoop, hd]

theorem dfsLoop_unvisited {V : Type} [DecidableEq V] (out : V → List V)
    (fuel : Nat) (visited : List V) {d : V} (ds : List V)
    (rest : List (List V)) (hd : d ∉ visited) :
    dfsLoop out (fuel + 1) visited ((d :: ds) :: rest)
      = (dfsLoop out fuel (visited ++ [d])
          (if out d = [] then ds :: rest else out d :: ds :: rest)).map
          (fun p => (d :: p.1, p.2)) := by
  simp [dfsLoop, hd]

theorem dfsRec_nil {V : Type} [DecidableEq V] (out : V → List V)
    (fuel : Nat) (visited : List V) :
    dfsRec out fuel visited [] = some ([], visited) := by
  cases fuel <;> rfl

theorem dfsRec_visited {V : Type} [DecidableEq V] (out : V → List V)
    (fuel : Nat) (visited : List V) {d : V} (rest : List V)
    (hd : d ∈ visited) :
    dfsRec out (fuel + 1) visited (d :: rest)
      = dfsRec out fuel visited rest := by
  simp [dfsRec, hd]

theorem dfsRec_unvisited {V : Type} [DecidableEq V] (out : V → List V)
    (fuel : Nat) (visited : List V) {d : V} (rest : List V)
    (hd : d ∉ visited) :
    dfsRec out (fuel + 1) visited (d :: rest)
      = match dfsRec out fuel (visited ++ [d]) (out d) with
        | none => none
        | some (ys₁, vis₁) =>
          match dfsRec out fuel vis₁ rest with
          | none => none
          | some (ys₂, vis₂) => some (d :: (ys₁ ++ ys₂), vis₂) := by
  simp [dfsRec, hd]

/-! ## Fuel monotonicity and composition for the DFS machine -/

theorem dfsLoop_mono {V : Type} [DecidableEq V] (out : V → List V) :
    ∀ (fuel : Nat) (visited : List V) (st : List (List V))
      {r : List V × List V},
      dfsLoop out fuel visited st = some r →
      dfsLoop out (fuel + 1) visited st = some r := by
  intro fuel
  induction fuel with
  | zero =>
    intro visited st r h
    cases st with
    | nil => exact h
    | cons fr rest => simp [dfsLoop] at h
  | succ fuel ih =>
    intro visited st r h
    cases st with
    | nil => exact h
    | cons fr rest =>
      cases fr with
      | nil =>
        rw [dfsLoop_nil_frame] at h
        rw [dfsLoop_nil_frame]
        exact ih _ _ h
      | cons d ds =>
        by_cases hd : d ∈ visited
        · rw [dfsLoop_visited out fuel _ _ _ hd] at h
          rw [dfsLoop_visited out (fuel + 1) _ _ _ hd]
          exact ih _ _ h
        · rw [dfsLoop_unvisited out fuel _ _ _ hd] at h
          rw [dfsLoop_unvisited out (fuel + 1) _ _ _ hd]
          cases hin : dfsLoop out fuel (visited ++ [d])
              (if out d = [] then ds :: rest else out d :: ds :: rest) with
          | none => rw [hin] at h; cases h
          | some p =>
            rw [hin] at h
            rw [ih _ _ hin]
            exact h

theorem dfsLoop_mono_le {V : Type} [DecidableEq V] (out : V → List V)
    {f1 f2 : Nat} (hle : f1 ≤ f2) (visited : List V) (st : List (List V))
    {r : List V × List V} (h : dfsLoop out f1 visited st = some r) :
    dfsLoop out f2 visited st = some r := by
  induction f2 with
  | zero =>
    have : f1 = 0 := by omega
    rw [← this]
    exact h
  | succ f2 ih =>
    by_cases he : f1 = f2 + 1
    · rw [← he]; exact h
    · exact dfsLoop_mono out f2 _ _ (ih (by omega))

theorem dfsLoop_comp {V : Type} [DecidableEq V] (out : V → List V) :
    ∀ (f1 : Nat) (visited : List V) (st1 : List (List V))
      {ys1 vis1 : List V},
      dfsLoop out f1 visited st1 = some (ys1, vis1) →
      ∀ (f2 : Nat) (st2 : List (List V)) {ys2 vis2 : List V},
      dfsLoop out f2 vis1 st2 = some (ys2, vis2) →
      dfsLoop out (f1 + f2) visited (st1 ++ st2)
        = some (ys1 ++ ys2, vis2) := by
  intro f1
  induction f1 with
  | zero =>
    intro visited st1 ys1 vis1 h1 f2 st2 ys2 vis2 h2
    cases st1 with
    | nil =>
      rw [dfsLoop_nil_stack] at h1
      injection h1 with h1
      obtain ⟨ha, hb⟩ := Prod.mk.injEq .. ▸ h1
      subst ha hb
      simpa using dfsLoop_mono_le out (by omega) _ _ h2
    | cons fr rest => simp [dfsLoop] at h1
  | succ f1 ih =>
    intro visited st1 ys1 vis1 h1 f2 st2 ys2 vis2 h2
    cases st1 with
    | nil =>
      rw [dfsLoop_nil_stack] at h1
      injection h1 with h1
      obtain ⟨ha, hb⟩ := Prod.mk.injEq .. ▸ h1
      subst ha hb
      simpa using dfsLoop_mono_le out (by omega) _ _ h2
    | cons fr rest =>
      cases fr with
      | nil =>
        rw [dfsLoop_nil_frame] at h1
        have := ih _ _ h1 f2 st2 h2
        rw [show (([] : List V) :: rest) ++ st2 = [] :: (rest ++ st2) from rfl]
        rw [show f1 + 1 + f2 = (f1 + f2) + 1 from by omega]
        rw [dfsLoop_nil_frame]
        exact this
      | cons d ds =>
        by_cases hd : d ∈ visited
        · rw [dfsLoop_visited out f1 _ _ _ hd] at h1
          have := ih _ _ h1 f2 st2 h2
          rw [show ((d :: ds) :: rest) ++ st2 = (d :: ds) :: (rest ++ st2)
            from rfl]
          rw [show f1 + 1 + f2 = (f1 + f2) + 1 from by omega]
          rw [dfsLoop_visited out (f1 + f2) _ _ _ hd]
          exact this
        · rw [dfsLoop_unvisited out f1 _ _ _ hd] at h1
          cases hin : dfsLoop out f1 (visited ++ [d])
              (if out d = [] then ds :: rest else out d :: ds :: rest) with
          | none => rw [hin] at h1; cases h1
          | some p =>
            rw [hin] at h1
            simp only [Option.map_some'] at h1
            injection h1 with h1
            obtain ⟨ha, hb⟩ := Prod.mk.injEq .. ▸ h1
            have hinner := ih _ _
              (show dfsLoop out f1 (visited ++ [d])
                  (if out d = [] then ds :: rest
                   else out d :: ds :: rest) = some (p.1, p.2) from by
                rw [hin])
              f2 st2 (by rw [hb]; exact h2)
            rw [show ((d :: ds) :: rest) ++ st2 = (d :: ds) :: (rest ++ st2)
              from rfl]
            rw [show f1 + 1 + f2 = (f1 + f2) + 1 from by omega]
            rw [dfsLoop_unvisited out (f1 + f2) _ _ _ hd]
            have hifeq : (if out d = [] then ds :: (rest ++ st2)
                else out d :: ds :: (rest ++ st2))
              = (if out d = [] then ds :: rest
                 else out d :: ds :: rest) ++ st2 := by
              by_cases ho : out d = [] <;> simp [ho]
            rw [hifeq, hinner]
            simp [← ha]
  -- end

end PyG

namespace PyG

/-! ## Structural lemmas for the DFS recursion -/

theorem dfsRec_unvisited_inv {V : Type} [DecidableEq V] (out : V → List V)
    {fuel : Nat} {visited : List V} {d : V} {rest : List V}
    {ys vis : List V} (hd : d ∉ visited)
    (h : dfsRec out (fuel + 1) visited (d :: rest) = some (ys, vis)) :
    ∃ ys₁ vis₁ ys₂,
      dfsRec out fuel (visited ++ [d]) (out d) = some (ys₁, vis₁) ∧
      dfsRec out fuel vis₁ rest = some (ys₂, vis) ∧
      ys = d :: (ys₁ ++ ys₂) := by
  rw [dfsRec_unvisited out fuel visited rest hd] at h
  cases hs1 : dfsRec out fuel (visited ++ [d]) (out d) with
  | none => rw [hs1] at h; cases h
  | some p1 =>
    obtain ⟨ys₁, vis₁⟩ := p1
    simp only [hs1] at h
    cases hs2 : dfsRec out fuel vis₁ rest with
    | none => simp only [hs2] at h; exact Option.noConfusion h
    | some p2 =>
      obtain ⟨ys₂, vis₂⟩ := p2
      simp only [hs2] at h
      injection h with h
      obtain ⟨ha, hb⟩ := Prod.mk.injEq .. ▸ h
      exact ⟨ys₁, vis₁, ys₂, rfl, hb ▸ hs2, ha.symm⟩

theorem dfsRec_nil_inv {V : Type} [DecidableEq V] (out : V → List V)
    {fuel : Nat} {visited : List V} {ys vis : List V}
    (h : dfsRec out fuel visited [] = some (ys, vis)) :
    ys = [] ∧ vis = visited := by
  rw [dfsRec_nil] at h
  injection h with h
  obtain ⟨ha, hb⟩ := Prod.mk.injEq .. ▸ h
  exact ⟨ha.symm, hb.symm⟩

theorem dfsRec_vis_shape {V : Type} [DecidableEq V] (out : V → List V) :
    ∀ (fuel : Nat) (visited ds : List V) {ys vis : List V},
      dfsRec out fuel visited ds = some (ys, vis) → vis = visited ++ ys := by
  intro fuel
  induction fuel with
  | zero =>
    intro visited ds ys vis h
    cases ds with
    | nil =>
      obtain ⟨ha, hb⟩ := dfsRec_nil_inv out h
      rw [ha, hb]
      simp
    | cons d rest => simp [dfsRec] at h
  | succ fuel ih =>
    intro visited ds ys vis h
    cases ds with
    | nil =>
      obtain ⟨ha, hb⟩ := dfsRec_nil_inv out h
      rw [ha, hb]
      simp
    | cons d rest =>
      by_cases hd : d ∈ visited
      · rw [dfsRec_visited out fuel visited rest hd] at h
        exact ih _ _ h
      · obtain ⟨ys₁, vis₁, ys₂, hs1, hs2, hys⟩ := dfsRec_unvisited_inv out hd h
        have e1 := ih _ _ hs1
        have e2 := ih _ _ hs2
        rw [hys, e2, e1]
        simp

theorem dfsRec_fresh {V : Type} [DecidableEq V] (out : V → List V) :
    ∀ (fuel : Nat) (visited ds : List V) {ys vis : List V},
      dfsRec out fuel visited ds = some (ys, vis) →
      ∀ y ∈ ys, y ∉ visited := by
  intro fuel
  induction fuel with
  | zero =>
    intro visited ds ys vis h y hy
    cases ds with
    | nil =>
      obtain ⟨ha, hb⟩ := dfsRec_nil_inv out h
      rw [ha] at hy
      simp at hy
    | cons d rest => simp [dfsRec] at h
  | succ fuel ih =>
    intro visited ds ys vis h y hy
    cases ds with
    | nil =>
      obtain ⟨ha, hb⟩ := dfsRec_nil_inv out h
      rw [ha] at hy
      simp at hy
    | cons d rest =>
      by_cases hd : d ∈ visited
      · rw [dfsRec_visited out fuel visited rest hd] at h
        exact ih _ _ h y hy
      · obtain ⟨ys₁, vis₁, ys₂, hs1, hs2, hys⟩ := dfsRec_unvisited_inv out hd h
        rw [hys] at hy
        rcases List.mem_cons.mp hy with hy | hy
        · exact hy ▸ hd
        rcases List.mem_append.mp hy with hy | hy
        · intro hyv
          exact ih _ _ hs1 y hy (List.mem_append.mpr (Or.inl hyv))
        · intro hyv
          have e1 := dfsRec_vis_shape out fuel _ _ hs1
          exact ih _ _ hs2 y hy
            (by rw [e1]
                exact List.mem_append.mpr
                  (Or.inl (List.mem_append.mpr (Or.inl hyv))))

theorem dfsRec_nodup {V : Type} [DecidableEq V] (out : V → List V) :
    ∀ (fuel : Nat) (visited ds : List V) {ys vis : List V},
      dfsRec out fuel visited ds = some (ys, vis) → ys.Nodup := by
  intro fuel
  induction fuel with
  | zero =>
    intro visited ds ys vis h
    cases ds with
    | nil =>
      obtain ⟨ha, hb⟩ := dfsRec_nil_inv out h
      rw [ha]
      exact List.nodup_nil
    | cons d rest => simp [dfsRec] at h
  | succ fuel ih =>
    intro visited ds ys vis h
    cases ds with
    | nil =>
      obtain ⟨ha, hb⟩ := dfsRec_nil_inv out h
      rw [ha]
      exact List.nodup_nil
    | cons d rest =>
      by_cases hd : d ∈ visited
      · rw [dfsRec_visited out fuel visited rest hd] at h
        exact ih _ _ h
      · obtain ⟨ys₁, vis₁, ys₂, hs1, hs2, hys⟩ := dfsRec_unvisited_inv out hd h
        have e1 := dfsRec_vis_shape out fuel _ _ hs1
        rw [hys]
        refine List.nodup_cons.mpr ⟨?_, ?_⟩
        · intro hmem
          rcases List.mem_append.mp hmem with hm | hm
          · exact dfsRec_fresh out fuel _ _ hs1 d hm
              (List.mem_append.mpr (Or.inr (by simp)))
          · exact dfsRec_fresh out fuel _ _ hs2 d hm
              (by rw [e1]
                  exact List.mem_append.mpr
                    (Or.inl (List.mem_append.mpr (Or.inr (by simp)))))
        · rw [List.nodup_append]
          refine ⟨ih _ _ hs1, ih _ _ hs2, ?_⟩
          intro a ha1 ha2
          exact dfsRec_fresh out fuel _ _ hs2 a ha2
            (by rw [e1]
                exact List.mem_append.mpr (Or.inr ha1))

theorem dfsRec_reachable {V : Type} [DecidableEq V] (out : V → List V)
    (s : V) :
    ∀ (fuel : Nat) (visited ds : List V) {ys vis : List V},
      dfsRec out fuel visited ds = some (ys, vis) →
      (∀ d ∈ ds, Reaches out s d) → ∀ y ∈ ys, Reaches out s y := by
  intro fuel
  induction fuel with
  | zero =>
    intro visited ds ys vis h hds y hy
    cases ds with
    | nil =>
      obtain ⟨ha, hb⟩ := dfsRec_nil_inv out h
      rw [ha] at hy
      simp at hy
    | cons d rest => simp [dfsRec] at h
  | succ fuel ih =>
    intro visited ds ys vis h hds y hy
    cases ds with
    | nil =>
      obtain ⟨ha, hb⟩ := dfsRec_nil_inv out h
      rw [ha] at hy
      simp at hy
    | cons d rest =>
      by_cases hd : d ∈ visited
      · rw [dfsRec_visited out fuel visited rest hd] at h
        exact ih _ _ h (fun x hx => hds x (List.mem_cons.mpr (Or.inr hx))) y hy
      · obtain ⟨ys₁, vis₁, ys₂, hs1, hs2, hys⟩ := dfsRec_unvisited_inv out hd h
        have hrd : Reaches out s d := hds d (List.mem_cons.mpr (Or.inl rfl))
        rw [hys] at hy
        rcases List.mem_cons.mp hy with hy | hy
        · exact hy ▸ hrd
        rcases List.mem_append.mp hy with hy | hy
        · exact ih _ _ hs1 (fun x hx => Reaches_step hrd hx) y hy
        · exact ih _ _ hs2
            (fun x hx => hds x (List.mem_cons.mpr (Or.inr hx))) y hy

theorem dfsRec_ds_visited {V : Type} [DecidableEq V] (out : V → List V) :
    ∀ (fuel : Nat) (visited ds : List V) {ys vis : List V},
      dfsRec out fuel visited ds = some (ys, vis) → ∀ x ∈ ds, x ∈ vis := by
  intro fuel
  induction fuel with
  | zero =>
    intro visited ds ys vis h x hx
    cases ds with
    | nil => simp at hx
    | cons d rest => simp [dfsRec] at h
  | succ fuel ih =>
    intro visited ds ys vis h x hx
    cases ds with
    | nil => simp at hx
    | cons d rest =>
      have hshape := dfsRec_vis_shape out (fuel + 1) visited (d :: rest) h
      by_cases hd : d ∈ visited
      · rw [dfsRec_visited out fuel visited rest hd] at h
        rcases List.mem_cons.mp hx with hx | hx
        · rw [hshape, hx]
          exact List.mem_append.mpr (Or.inl hd)
        · exact ih _ _ h x hx
      · obtain ⟨ys₁, vis₁, ys₂, hs1, hs2, hys⟩ := dfsRec_unvisited_inv out hd h
        rcases List.mem_cons.mp hx with hx | hx
        · rw [hshape, hx, hys]
          exact List.mem_append.mpr (Or.inr (List.mem_cons.mpr (Or.inl rfl)))
        · exact ih _ _ hs2 x hx

theorem dfsRec_yield_closed {V : Type} [DecidableEq V] (out : V → List V) :
    ∀ (fuel : Nat) (visited ds : List V) {ys vis : List V},
      dfsRec out fuel visited ds = some (ys, vis) →
      ∀ y ∈ ys, ∀ u ∈ out y, u ∈ vis := by
  intro fuel
  induction fuel with
  | zero =>
    intro visited ds ys vis h y hy
    cases ds with
    | nil =>
      obtain ⟨ha, hb⟩ := dfsRec_nil_inv out h
      rw [ha] at hy
      simp at hy
    | cons d rest => simp [dfsRec] at h
  | succ fuel ih =>
    intro visited ds ys vis h y hy u hu
    cases ds with
    | nil =>
      obtain ⟨ha, hb⟩ := dfsRec_nil_inv out h
      rw [ha] at hy
      simp at hy
    | cons d rest =>
      by_cases hd : d ∈ visited
      · rw [dfsRec_visited out fuel visited rest hd] at h
        exact ih _ _ h y hy u hu
      · obtain ⟨ys₁, vis₁, ys₂, hs1, hs2, hys⟩ := dfsRec_unvisited_inv out hd h
        have e2 := dfsRec_vis_shape out fuel _ _ hs2
        rw [hys] at hy
        rcases List.mem_cons.mp hy with hy | hy
        · subst hy
          have := dfsRec_ds_visited out fuel _ _ hs1 u hu
          rw [e2]
          exact List.mem_append.mpr (Or.inl this)
        rcases List.mem_append.mp hy with hy | hy
        · have := ih _ _ hs1 y hy u hu
          rw [e2]
          exact List.mem_append.mpr (Or.inl this)
        · exact ih _ _ hs2 y hy u hu

theorem dfsRec_univ {V : Type} [DecidableEq V] (out : V → List V)
    (univ : List V) (hclosed : ∀ v ∈ univ, ∀ u ∈ out v, u ∈ univ) :
    ∀ (fuel : Nat) (visited ds : List V) {ys vis : List V},
      dfsRec out fuel visited ds = some (ys, vis) →
      (∀ d ∈ ds, d ∈ univ) → ∀ y ∈ ys, y ∈ univ := by
  intro fuel
  induction fuel with
  | zero =>
    intro visited ds ys vis h hds y hy
    cases ds with
    | nil =>
      obtain ⟨ha, hb⟩ := dfsRec_nil_inv out h
      rw [ha] at hy
      simp at hy
    | cons d rest => simp [dfsRec] at h
  | succ fuel ih =>
    intro visited ds ys vis h hds y hy
    cases ds with
    | nil =>
      obtain ⟨ha, hb⟩ := dfsRec_nil_inv out h
      rw [ha] at hy
      simp at hy
    | cons d rest =>
      by_cases hd : d ∈ visited
      · rw [dfsRec_visited out fuel visited rest hd] at h
        exact ih _ _ h (fun x hx => hds x (List.mem_cons.mpr (Or.inr hx))) y hy
      · obtain ⟨ys₁, vis₁, ys₂, hs1, hs2, hys⟩ := dfsRec_unvisited_inv out hd h
        have hdu : d ∈ univ := hds d (List.mem_cons.mpr (Or.inl rfl))
        rw [hys] at hy
        rcases List.mem_cons.mp hy with hy | hy
        · exact hy ▸ hdu
        rcases List.mem_append.mp hy with hy | hy
        · exact ih _ _ hs1 (fun x hx => hclosed d hdu x hx) y hy
        · exact ih _ _ hs2
            (fun x hx => hds x (List.mem_cons.mpr (Or.inr hx))) y hy

end PyG

namespace PyG

theorem length_out_le_outSum {V : Type} (out : V → List V) (univ : List V)
    {d : V} (hd : d ∈ univ) : (out d).length ≤ outSum out univ := by
  unfold outSum
  exact List.single_le_sum (fun x _ => Nat.zero_le x) _
    (List.mem_map.mpr ⟨d, hd, rfl⟩)

theorem dfsRec_terminates {V : Type} [DecidableEq V] (out : V → List V)
    (univ : List V) (hU : univ.Nodup)
    (hclosed : ∀ v ∈ univ, ∀ u ∈ out v, u ∈ univ) :
    ∀ (fuel : Nat) (visited ds : List V),
      visited.Nodup → (∀ x ∈ visited, x ∈ univ) → (∀ d ∈ ds, d ∈ univ) →
      (univ.length - visited.length) * (outSum out univ + 1) + ds.length
        ≤ fuel →
      ∃ r, dfsRec out fuel visited ds = some r := by
  intro fuel
  induction fuel with
  | zero =>
    intro visited ds hnd hvu hdu hm
    cases ds with
    | nil => exact ⟨([], visited), dfsRec_nil out 0 visited⟩
    | cons d rest => simp [List.length_cons] at hm
  | succ fuel ih =>
    intro visited ds hnd hvu hdu hm
    cases ds with
    | nil => exact ⟨([], visited), dfsRec_nil out _ visited⟩
    | cons d rest =>
      simp only [List.length_cons] at hm
      by_cases hd : d ∈ visited
      · obtain ⟨r, hr⟩ := ih visited rest hnd hvu
          (fun x hx => hdu x (List.mem_cons.mpr (Or.inr hx))) (by omega)
        exact ⟨r, by rw [dfsRec_visited out fuel visited rest hd]; exact hr⟩
      · have hdu' : d ∈ univ := hdu d (List.mem_cons.mpr (Or.inl rfl))
        have hnd1 : (visited ++ [d]).Nodup := by
          rw [List.nodup_append]
          exact ⟨hnd, List.nodup_singleton d,
            fun a ha hak => hd ((List.mem_singleton.mp hak) ▸ ha)⟩
        have hvu1 : ∀ x ∈ visited ++ [d], x ∈ univ := by
          intro x hx
          rcases List.mem_append.mp hx with hx | hx
          · exact hvu x hx
          · exact (List.mem_singleton.mp hx) ▸ hdu'
        have hlen1 : (visited ++ [d]).length ≤ univ.length :=
          nodup_length_le hnd1 hvu1
        simp only [List.length_append, List.length_cons, List.length_nil]
          at hlen1
        have hkey : (univ.length - visited.length) * (outSum out univ + 1)
            = (univ.length - (visited.length + 1)) * (outSum out univ + 1)
              + (outSum out univ + 1) := by
          have h1 : univ.length - visited.length
              = (univ.length - (visited.length + 1)) + 1 := by omega
          rw [h1, Nat.succ_mul]
        have houtd : (out d).length ≤ outSum out univ :=
          length_out_le_outSum out univ hdu'
        have hm1 : (univ.length - (visited ++ [d]).length)
            * (outSum out univ + 1) + (out d).length ≤ fuel := by
          simp only [List.length_append, List.length_cons, List.length_nil,
            Nat.zero_add]
          omega
        obtain ⟨⟨ys₁, vis₁⟩, hr1⟩ := ih (visited ++ [d]) (out d) hnd1 hvu1
          (fun x hx => hclosed d hdu' x hx) hm1
        have e1 : vis₁ = (visited ++ [d]) ++ ys₁ :=
          dfsRec_vis_shape out fuel _ _ hr1
        have hfresh1 := dfsRec_fresh out fuel _ _ hr1
        have hnodup1 := dfsRec_nodup out fuel _ _ hr1
        have huniv1 := dfsRec_univ out univ hclosed fuel _ _ hr1
          (fun x hx => hclosed d hdu' x hx)
        have hndvis1 : vis₁.Nodup := by
          rw [e1, List.nodup_append]
          exact ⟨hnd1, hnodup1, fun a ha1 ha2 => hfresh1 a ha2 ha1⟩
        have hvu2 : ∀ x ∈ vis₁, x ∈ univ := by
          intro x hx
          rw [e1] at hx
          rcases List.mem_append.mp hx with hx | hx
          · exact hvu1 x hx
          · exact huniv1 x hx
        have hlen2 : vis₁.length ≤ univ.length := nodup_length_le hndvis1 hvu2
        have hlenmono : visited.length + 1 ≤ vis₁.length := by
          rw [e1]
          simp only [List.length_append, List.length_cons, List.length_nil]
          omega
        have hmulmono : (univ.length - vis₁.length) * (outSum out univ + 1)
            ≤ (univ.length - (visited.length + 1))
              * (outSum out univ + 1) :=
          Nat.mul_le_mul_right _ (by omega)
        have hm2 : (univ.length - vis₁.length) * (outSum out univ + 1)
            + rest.length ≤ fuel := by omega
        obtain ⟨⟨ys₂, vis₂⟩, hr2⟩ := ih vis₁ rest hndvis1 hvu2
          (fun x hx => hdu x (List.mem_cons.mpr (Or.inr hx))) hm2
        refine ⟨(d :: (ys₁ ++ ys₂), vis₂), ?_⟩
        rw [dfsRec_unvisited out fuel visited rest hd]
        simp only [hr1, hr2]

theorem dfsRec_to_dfsLoop {V : Type} [DecidableEq V] (out : V → List V) :
    ∀ (fuel : Nat) (visited ds : List V) {ys vis : List V},
      dfsRec out fuel visited ds = some (ys, vis) →
      ∃ m, dfsLoop out m visited [ds] = some (ys, vis) := by
  intro fuel
  induction fuel with
  | zero =>
    intro visited ds ys vis h
    cases ds with
    | nil =>
      obtain ⟨ha, hb⟩ := dfsRec_nil_inv out h
      subst ha
      refine ⟨1, ?_⟩
      rw [show dfsLoop out 1 visited [[]]
          = dfsLoop out 0 visited [] from rfl, dfsLoop_nil_stack, hb]
    | cons d rest => simp [dfsRec] at h
  | succ fuel ih =>
    intro visited ds ys vis h
    cases ds with
    | nil =>
      obtain ⟨ha, hb⟩ := dfsRec_nil_inv out h
      subst ha
      refine ⟨1, ?_⟩
      rw [show dfsLoop out 1 visited [[]]
          = dfsLoop out 0 visited [] from rfl, dfsLoop_nil_stack, hb]
    | cons d rest =>
      by_cases hd : d ∈ visited
      · rw [dfsRec_visited out fuel visited rest hd] at h
        obtain ⟨m, hm⟩ := ih _ _ h
        exact ⟨m + 1, by
          rw [dfsLoop_visited out m visited rest [] hd]
          exact hm⟩
      · obtain ⟨ys₁, vis₁, ys₂, hs1, hs2, hys⟩ := dfsRec_unvisited_inv out hd h
        by_cases ho : out d = []
        · rw [ho] at hs1
          obtain ⟨ha, hb⟩ := dfsRec_nil_inv out hs1
          obtain ⟨m₂, hm₂⟩ := ih _ _ hs2
          refine ⟨m₂ + 1, ?_⟩
          rw [dfsLoop_unvisited out m₂ visited rest [] hd, if_pos ho]
          rw [hb] at hm₂
          rw [hm₂]
          simp [hys, ha]
        · obtain ⟨m₁, hm₁⟩ := ih _ _ hs1
          obtain ⟨m₂, hm₂⟩ := ih _ _ hs2
          refine ⟨m₁ + m₂ + 1, ?_⟩
          rw [dfsLoop_unvisited out (m₁ + m₂) visited rest [] hd, if_neg ho]
          have hcomp := dfsLoop_comp out m₁ (visited ++ [d]) [out d] hm₁
            m₂ [rest] hm₂
          rw [show ([out d] ++ [rest] : List (List V))
              = [out d, rest] from rfl] at hcomp
          rw [hcomp]
          simp [hys]

end PyG

namespace PyG

/-- C5: from any start vertex `s` of a finite out-closed vertex universe,
`IterateVertexesDFS` is a finite sequence (some fuel bound `M` makes the
machine finish, and any larger fuel returns the same list), yields `s` first,
yields exactly the vertices reachable from `s` with no repetition, and its
output is the recursive first-unvisited-successor preorder `DFSPreorder` —
the preorder of the stack-based exploration that enters each vertex's first
unvisited outbound edge before backtracking. -/
theorem C5_IterateVertexesDFS_correct {V : Type} [DecidableEq V]
    (out : V → List V) (univ : List V) (s : V)
    (hU : univ.Nodup) (hs : s ∈ univ)
    (hclosed : ∀ v ∈ univ, ∀ u ∈ out v, u ∈ univ) :
    ∃ (l : List V) (M : Nat),
      (∀ fuel, M ≤ fuel → IterateVertexesDFS out fuel s = some l) ∧
      l.head? = some s ∧
      (∀ v, v ∈ l ↔ Reaches out s v) ∧
      l.Nodup ∧
      (∃ g, DFSPreorder out g s = some l) := by
  have hsub : ∀ x ∈ ([s] : List V), x ∈ univ := by
    intro x hx
    rw [List.mem_singleton.mp hx]
    exact hs
  have hmeasure : (univ.length - ([s] : List V).length)
      * (outSum out univ + 1) + (out s).length
      ≤ (univ.length - 1) * (outSum out univ + 1) + (out s).length := by
    simp
  obtain ⟨⟨ys, vis⟩, hrec⟩ := dfsRec_terminates out univ hU hclosed
    ((univ.length - 1) * (outSum out univ + 1) + (out s).length)
    [s] (out s) (List.nodup_singleton s) hsub
    (fun d hd' => hclosed s hs d hd') hmeasure
  obtain ⟨m, hmach⟩ := dfsRec_to_dfsLoop out _ _ _ hrec
  have e : vis = [s] ++ ys := dfsRec_vis_shape out _ _ _ hrec
  refine ⟨s :: ys, m, ?_, rfl, ?_, ?_, ?_⟩
  · intro fuel hf
    show (dfsLoop out fuel [s] [out s]).map (fun p => s :: p.1)
      = some (s :: ys)
    rw [dfsLoop_mono_le out hf _ _ hmach]
    rfl
  · intro v
    constructor
    · intro hv
      rcases List.mem_cons.mp hv with hv | hv
      · exact hv ▸ Reaches_self out s
      · exact dfsRec_reachable out s _ _ _ hrec
          (fun d hd' => Reaches_step (Reaches_self out s) hd') v hv
    · intro hv
      have hcl1 : ∀ u ∈ out s, u ∈ vis := dfsRec_ds_visited out _ _ _ hrec
      have hcl2 := dfsRec_yield_closed out _ _ _ hrec
      obtain ⟨n, hn⟩ := hv
      have hvis : ∀ m z, reachN out m s z → z ∈ vis := by
        intro m
        induction m with
        | zero =>
          intro z hz
          rw [hz, e]
          exact List.mem_append.mpr (Or.inl (List.mem_singleton.mpr rfl))
        | succ m ihm =>
          intro z hz
          obtain ⟨u, hu, hzu⟩ := hz
          have huv := ihm u hu
          rw [e] at huv
          rcases List.mem_append.mp huv with h' | h'
          · have hus : u = s := List.mem_singleton.mp h'
            exact hcl1 z (hus ▸ hzu)
          · exact hcl2 u h' z hzu
      have hzv := hvis n v hn
      rw [e] at hzv
      rcases List.mem_append.mp hzv with h' | h'
      · exact List.mem_cons.mpr (Or.inl (List.mem_singleton.mp h'))
      · exact List.mem_cons.mpr (Or.inr h')
  · have h1 := dfsRec_nodup out _ _ _ hrec
    have h2 := dfsRec_fresh out _ _ _ hrec
    exact List.nodup_cons.mpr
      ⟨fun hm => h2 s hm (List.mem_singleton.mpr rfl), h1⟩
  · refine ⟨(univ.length - 1) * (outSum out univ + 1) + (out s).length, ?_⟩
    show (dfsRec out _ [s] (out s)).map (fun p => s :: p.1) = some (s :: ys)
    rw [hrec]
    rfl

/-- Witness for C5 on the concrete path graph `0 → 1`. -/
theorem C5_IterateVertexesDFS_correct_witness :
    (([0, 1] : List Nat).Nodup ∧ (0 : Nat) ∈ ([0, 1] : List Nat) ∧
     (∀ v ∈ ([0, 1] : List Nat), ∀ u ∈ outPath2 v,
        u ∈ ([0, 1] : List Nat))) ∧
    (∃ (l : List Nat) (M : Nat),
      (∀ fuel, M ≤ fuel → IterateVertexesDFS outPath2 fuel 0 = some l) ∧
      l.head? = some 0 ∧
      (∀ v, v ∈ l ↔ Reaches outPath2 0 v) ∧
      l.Nodup ∧
      (∃ g, DFSPreorder outPath2 g 0 = some l)) :=
  ⟨⟨by decide, by decide, by decide⟩,
   C5_IterateVertexesDFS_correct outPath2 [0, 1] 0 (by decide) (by decide)
     (by decide)⟩

end PyG
